import Mathlib

/-!
Verification development for the image-thresholding engine of this repository
(global histogram-based threshold selectors, the multi-Otsu engine, and the
local/adaptive threshold engine).  The implementation files of the engine are
not part of the source tree available here (only their test suite is), so every
operation is modelled from the specification, faithful to its words and to the
exact behaviours pinned by the test suite; arithmetic is exact (rationals
instead of machine floats).
-/

namespace Threshold

/-! ## Prefix sums -/

/-- Running prefix sum: `sumTo f n = f 0 + f 1 + ... + f (n-1)`. -/
def sumTo (f : ℕ → ℚ) : ℕ → ℚ
  | 0 => 0
  | n + 1 => sumTo f n + f n

/-- Direct summation of `f` over the half-open index range `[s, e)`,
as a loop over that range (used by the brute-force multi-Otsu search). -/
def sumIco (f : ℕ → ℚ) (s e : ℕ) : ℚ :=
  ((List.range' s (e - s)).map f).sum

theorem sumTo_eq_finset (f : ℕ → ℚ) (n : ℕ) :
    sumTo f n = ∑ j ∈ Finset.range n, f j := by
  induction n with
  | zero => simp [sumTo]
  | succ n ih => rw [sumTo, ih, Finset.sum_range_succ]

theorem range'_map_sum (f : ℕ → ℚ) : ∀ (k s : ℕ),
    ((List.range' s k).map f).sum = ∑ j ∈ Finset.Ico s (s + k), f j := by
  intro k
  induction k with
  | zero => intro s; simp
  | succ k ih =>
    intro s
    rw [List.range'_succ, List.map_cons, List.sum_cons, ih (s + 1)]
    rw [Finset.sum_eq_sum_Ico_succ_bot (by omega : s < s + (k + 1))]
    have he : s + 1 + k = s + (k + 1) := by omega
    rw [he]

theorem sumIco_eq_finset (f : ℕ → ℚ) (s e : ℕ) (h : s ≤ e) :
    sumIco f s e = ∑ j ∈ Finset.Ico s e, f j := by
  unfold sumIco
  rw [range'_map_sum f (e - s) s]
  have he : s + (e - s) = e := by omega
  rw [he]

theorem sumIco_eq_sub (f : ℕ → ℚ) (s e : ℕ) (h : s ≤ e) :
    sumIco f s e = sumTo f e - sumTo f s := by
  rw [sumIco_eq_finset f s e h, sumTo_eq_finset, sumTo_eq_finset,
    Finset.range_eq_Ico]
  have hs : ∑ i ∈ Finset.Ico 0 s, f i + ∑ i ∈ Finset.Ico s e, f i
      = ∑ i ∈ Finset.Ico 0 e, f i :=
    Finset.sum_Ico_consecutive f (Nat.zero_le s) h
  linarith

theorem sumTo_nonneg (f : ℕ → ℚ) (n : ℕ) (h : ∀ j, j < n → 0 ≤ f j) :
    0 ≤ sumTo f n := by
  rw [sumTo_eq_finset]
  exact Finset.sum_nonneg fun j hj => h j (Finset.mem_range.mp hj)

theorem sumTo_mono (f : ℕ → ℚ) (a b : ℕ) (hab : a ≤ b)
    (h : ∀ j, j < b → 0 ≤ f j) : sumTo f a ≤ sumTo f b := by
  rw [sumTo_eq_finset, sumTo_eq_finset]
  refine Finset.sum_le_sum_of_subset_of_nonneg ?_ ?_
  · exact Finset.range_subset.mpr hab
  · intro j hj _
    exact h j (Finset.mem_range.mp hj)

/-! ## First-occurrence argmax (the tie-breaking rule used by `np.argmax` and by
the strict-improvement updates of the multi-Otsu searches: the first candidate
attaining the maximum is kept). -/

/-- Fold step of the first-occurrence argmax: the current best is replaced
only by a strictly larger value. -/
def argmaxGo {α : Type} (f : α → ℚ) : α → List α → α
  | b, [] => b
  | b, x :: xs => if f b < f x then argmaxGo f x xs else argmaxGo f b xs

/-- First-occurrence argmax over a candidate list. -/
def argmaxFirst {α : Type} (f : α → ℚ) : List α → Option α
  | [] => none
  | x :: xs => some (argmaxGo f x xs)

theorem argmaxGo_congr {α : Type} (f g : α → ℚ) :
    ∀ (l : List α) (b : α),
      (∀ a a', a ∈ b :: l → a' ∈ b :: l → (f a < f a' ↔ g a < g a')) →
      argmaxGo f b l = argmaxGo g b l := by
  intro l
  induction l with
  | nil => intro b _; rfl
  | cons x xs ih =>
    intro b h
    have hbx : f b < f x ↔ g b < g x := by
      refine h b x ?_ ?_ <;> simp
    by_cases hc : f b < f x
    · rw [argmaxGo, argmaxGo, if_pos hc, if_pos (hbx.mp hc)]
      have sub : ∀ y, y ∈ x :: xs → y ∈ b :: x :: xs :=
        fun y hy => List.mem_cons_of_mem b hy
      exact ih x (fun a a' ha ha' => h a a' (sub a ha) (sub a' ha'))
    · rw [argmaxGo, argmaxGo, if_neg hc, if_neg (fun hg => hc (hbx.mpr hg))]
      have sub : ∀ y, y ∈ b :: xs → y ∈ b :: x :: xs := by
        intro y hy
        rcases List.mem_cons.mp hy with h1 | h2
        · exact h1 ▸ List.mem_cons_self y _
        · exact List.mem_cons_of_mem b (List.mem_cons_of_mem x h2)
      exact ih b (fun a a' ha ha' => h a a' (sub a ha) (sub a' ha'))

theorem argmaxFirst_congr {α : Type} (f g : α → ℚ) (l : List α)
    (h : ∀ a a', a ∈ l → a' ∈ l → (f a < f a' ↔ g a < g a')) :
    argmaxFirst f l = argmaxFirst g l := by
  cases l with
  | nil => rfl
  | cons x xs =>
    show some (argmaxGo f x xs) = some (argmaxGo g x xs)
    rw [argmaxGo_congr f g xs x h]

theorem argmaxGo_map {α β : Type} (f : β → ℚ) (e : α → β) :
    ∀ (l : List α) (b : α),
      argmaxGo f (e b) (l.map e) = e (argmaxGo (fun a => f (e a)) b l) := by
  intro l
  induction l with
  | nil => intro b; rfl
  | cons x xs ih =>
    intro b
    by_cases hc : f (e b) < f (e x)
    · simp only [List.map_cons, argmaxGo, if_pos hc, ih]
    · simp only [List.map_cons, argmaxGo, if_neg hc, ih]

theorem argmaxFirst_map {α β : Type} (f : β → ℚ) (e : α → β) (l : List α) :
    argmaxFirst f (l.map e) = (argmaxFirst (fun a => f (e a)) l).map e := by
  cases l with
  | nil => rfl
  | cons x xs =>
    show some (argmaxGo f (e x) (xs.map e)) = (some (argmaxGo (fun a => f (e a)) x xs)).map e
    rw [argmaxGo_map f e xs x]
    rfl

/-! ## Multi-Otsu engine

Modelled from the spec: the implementation file of the multi-Otsu engine
(`skimage/threshold/_multiotsu.pyx`, with `_get_multiotsu_thresh_indices` and
`_get_multiotsu_thresh_indices_lut`) is not in the available source tree; the
two searches below follow the spec's §4.2 description — a recursive
enumeration of all strictly increasing `(classes-1)`-tuples of cut indices,
maximizing total inter-class variance, once evaluated per class by direct
summation (brute force) and once through precomputed partial-sum tables
(lookup-table variant) — and the enumeration order and strict-improvement
tie-breaking pinned by the test suite's exact-equality check. -/

/-- Enumeration, in lexicographic order, of the strictly increasing index
tuples visited by the recursive multi-Otsu search: `m` more indices to choose,
the next one at least `lo`, every index strictly below `hi` (with enough room
left for the remaining ones). -/
def incTuplesFrom : ℕ → ℕ → ℕ → List (List ℕ)
  | 0, _, _ => [[]]
  | m + 1, lo, hi =>
    (List.range' lo (hi - m - lo)).flatMap
      (fun i => (incTuplesFrom m (i + 1) hi).map (fun t => i :: t))

/-- Half-open bin-index ranges of the classes delimited by a tuple of cut
indices: cutting at `i` puts bins `..i` in one class and `i+1..` in the next. -/
def rangesFrom (n : ℕ) (s : ℕ) : List ℕ → List (ℕ × ℕ)
  | [] => [(s, n)]
  | i :: rest => (s, i + 1) :: rangesFrom n (i + 1) rest

/-- Zeroth cumulative moment of a histogram: total probability mass of the
first `k` bins (the lookup-table variant's `zeroth_moment`). -/
def mom0 (prob : ℕ → ℚ) (k : ℕ) : ℚ := sumTo prob k

/-- First cumulative moment: mass-weighted sum of bin indices of the first `k`
bins (the lookup-table variant's `first_moment`; the engine uses the bin index
as the bin value). -/
def mom1 (prob : ℕ → ℚ) (k : ℕ) : ℚ := sumTo (fun j => (j : ℚ) * prob j) k

/-- Lookup-table entry for the class occupying bins `[s, e)`: the partial sums
give its mass and weighted sum in O(1), and the stored quantity is
`(first moment)² / (zeroth moment)` (zero for an empty class). -/
def lutTerm (prob : ℕ → ℚ) (s e : ℕ) : ℚ :=
  let s0 := mom0 prob e - mom0 prob s
  let s1 := mom1 prob e - mom1 prob s
  if 0 < s0 then s1 ^ 2 / s0 else 0

/-- Lookup-table objective of a cut tuple: sum of the table entries of its
classes. -/
def lutVar (prob : ℕ → ℚ) (n : ℕ) (t : List ℕ) : ℚ :=
  ((rangesFrom n 0 t).map (fun r => lutTerm prob r.1 r.2)).sum

/-- Brute-force per-class term: the class's probability mass and mean are
recomputed by direct summation over its bins, contributing
`mass * (mean - global mean)²` (skipped for an empty class). -/
def bruteTerm (prob : ℕ → ℚ) (mu : ℚ) (s e : ℕ) : ℚ :=
  let p := sumIco prob s e
  if 0 < p then p * (sumIco (fun j => (j : ℚ) * prob j) s e / p - mu) ^ 2 else 0

/-- Brute-force objective of a cut tuple: total inter-class variance, the sum
over classes of `mass * (mean - global mean)²`. -/
def bruteVar (prob : ℕ → ℚ) (n : ℕ) (t : List ℕ) : ℚ :=
  let mu := sumIco (fun j => (j : ℚ) * prob j) 0 n
  ((rangesFrom n 0 t).map (fun r => bruteTerm prob mu r.1 r.2)).sum

/-- Modelled from the spec: the missing `_get_multiotsu_thresh_indices_lut`
search over a histogram of `n` bins — the first
strictly increasing `m`-tuple of cut indices maximizing the lookup-table
objective. -/
def lutSearch (prob : ℕ → ℚ) (n m : ℕ) : Option (List ℕ) :=
  argmaxFirst (lutVar prob n) (incTuplesFrom m 0 (n - 1))

/-- Modelled from the spec: the missing `_get_multiotsu_thresh_indices`
brute-force search — the first strictly increasing `m`-tuple of cut
indices maximizing the directly summed inter-class variance. -/
def bruteSearch (prob : ℕ → ℚ) (n m : ℕ) : Option (List ℕ) :=
  argmaxFirst (bruteVar prob n) (incTuplesFrom m 0 (n - 1))

/-- The lookup-table multi-Otsu index search over a probability list, as the
test suite calls it. -/
def getMultiotsuThreshIndicesLut (prob : List ℚ) (m : ℕ) : Option (List ℕ) :=
  lutSearch (fun j => prob.getD j 0) prob.length m

/-- The brute-force multi-Otsu index search over a probability list, as the
test suite calls it. -/
def getMultiotsuThreshIndices (prob : List ℚ) (m : ℕ) : Option (List ℕ) :=
  bruteSearch (fun j => prob.getD j 0) prob.length m

theorem incTuplesFrom_invariant : ∀ (m lo hi : ℕ) (t : List ℕ),
    t ∈ incTuplesFrom m lo hi →
    List.Pairwise (· < ·) t ∧ ∀ e ∈ t, lo ≤ e ∧ e < hi := by
  intro m
  induction m with
  | zero =>
    intro lo hi t ht
    simp only [incTuplesFrom, List.mem_singleton] at ht
    subst ht
    exact ⟨List.Pairwise.nil, by simp⟩
  | succ m ih =>
    intro lo hi t ht
    simp only [incTuplesFrom, List.mem_flatMap, List.mem_map] at ht
    obtain ⟨i, hi_mem, t', ht', rfl⟩ := ht
    have hi_rng := List.mem_range'_1.mp hi_mem
    obtain ⟨hpw, hbd⟩ := ih (i + 1) hi t' ht'
    have hi_lt : i < hi := by omega
    refine ⟨List.Pairwise.cons (fun e he => ?_) hpw, ?_⟩
    · exact lt_of_lt_of_le (Nat.lt_succ_self i) (hbd e he).1
    · intro e he
      rcases List.mem_cons.mp he with rfl | he'
      · exact ⟨hi_rng.1, hi_lt⟩
      · exact ⟨le_trans (by omega) (hbd e he').1, (hbd e he').2⟩

theorem rangesFrom_sorted (n : ℕ) : ∀ (t : List ℕ) (s : ℕ),
    List.Pairwise (· < ·) t → (∀ e ∈ t, s ≤ e ∧ e + 1 ≤ n) → s ≤ n →
    ∀ r ∈ rangesFrom n s t, r.1 ≤ r.2 ∧ r.2 ≤ n := by
  intro t
  induction t with
  | nil =>
    intro s _ _ hsn r hr
    simp only [rangesFrom, List.mem_singleton] at hr
    subst hr
    exact ⟨hsn, le_refl n⟩
  | cons i rest ih =>
    intro s hpw hbd hsn r hr
    have hi := hbd i (List.mem_cons_self i rest)
    simp only [rangesFrom, List.mem_cons] at hr
    rcases hr with rfl | hr'
    · exact ⟨by omega, hi.2⟩
    · refine ih (i + 1) (List.Pairwise.sublist (List.sublist_cons_self i rest) hpw) ?_ hi.2 r hr'
      intro e he
      have := hbd e (List.mem_cons_of_mem i he)
      have hlt := (List.pairwise_cons.mp hpw).1 e he
      exact ⟨by omega, this.2⟩

theorem rangesFrom_chain (n : ℕ) : ∀ (t : List ℕ) (s : ℕ) (h : ℕ → ℚ),
    ((rangesFrom n s t).map (fun r => h r.2 - h r.1)).sum = h n - h s := by
  intro t
  induction t with
  | nil => intro s h; simp [rangesFrom]
  | cons i rest ih =>
    intro s h
    simp only [rangesFrom, List.map_cons, List.sum_cons, ih (i + 1) h]
    ring

theorem list_sum_map_add {α : Type} : ∀ (l : List α) (a b : α → ℚ),
    (l.map (fun r => a r + b r)).sum = (l.map a).sum + (l.map b).sum := by
  intro l a b
  induction l with
  | nil => simp
  | cons x xs ih => simp only [List.map_cons, List.sum_cons, ih]; ring

theorem list_sum_getD : ∀ (l : List ℚ),
    ∑ j ∈ Finset.range l.length, l.getD j 0 = l.sum := by
  intro l
  induction l with
  | nil => simp
  | cons x xs ih =>
    rw [List.length_cons, Finset.sum_range_succ']
    simp only [List.getD_cons_succ, List.getD_cons_zero, List.sum_cons, ih]
    ring

theorem mom1_eq_zero_of_mom0 (prob : ℕ → ℚ) (hp : ∀ j, 0 ≤ prob j)
    (s e : ℕ) (hse : s ≤ e) (h0 : mom0 prob e - mom0 prob s = 0) :
    mom1 prob e - mom1 prob s = 0 := by
  have hico : ∑ j ∈ Finset.Ico s e, prob j = 0 := by
    have := sumIco_eq_sub prob s e hse
    rw [sumIco_eq_finset prob s e hse] at this
    unfold mom0 at h0
    linarith
  have hz : ∀ j ∈ Finset.Ico s e, prob j = 0 :=
    (Finset.sum_eq_zero_iff_of_nonneg (fun j _ => hp j)).mp hico
  have h1 : sumIco (fun j => (j : ℚ) * prob j) s e = 0 := by
    rw [sumIco_eq_finset _ s e hse]
    exact Finset.sum_eq_zero fun j hj => by rw [hz j hj, mul_zero]
  rw [sumIco_eq_sub _ s e hse] at h1
  unfold mom1
  linarith

theorem lutTerm_eq_bruteTerm (prob : ℕ → ℚ) (hp : ∀ j, 0 ≤ prob j)
    (mu : ℚ) (s e : ℕ) (hse : s ≤ e) :
    lutTerm prob s e = bruteTerm prob mu s e +
      ((2 * mu * mom1 prob e - mu ^ 2 * mom0 prob e) -
       (2 * mu * mom1 prob s - mu ^ 2 * mom0 prob s)) := by
  have h0 : sumIco prob s e = mom0 prob e - mom0 prob s :=
    sumIco_eq_sub prob s e hse
  have h1 : sumIco (fun j => (j : ℚ) * prob j) s e = mom1 prob e - mom1 prob s :=
    sumIco_eq_sub _ s e hse
  unfold lutTerm bruteTerm
  rw [h0, h1]
  by_cases hpos : 0 < mom0 prob e - mom0 prob s
  · rw [if_pos hpos, if_pos hpos]
    have hne : mom0 prob e - mom0 prob s ≠ 0 := ne_of_gt hpos
    field_simp
    ring
  · rw [if_neg hpos, if_neg hpos]
    have hge : 0 ≤ mom0 prob e - mom0 prob s := by
      have h2 := sumIco_eq_finset prob s e hse
      have hnn : 0 ≤ ∑ j ∈ Finset.Ico s e, prob j :=
        Finset.sum_nonneg fun j _ => hp j
      unfold mom0
      rw [← sumIco_eq_sub prob s e hse, h2]
      exact hnn
    have hz0 : mom0 prob e - mom0 prob s = 0 :=
      le_antisymm (not_lt.mp hpos) hge
    have hz1 : mom1 prob e - mom1 prob s = 0 :=
      mom1_eq_zero_of_mom0 prob hp s e hse hz0
    have e0 : mom0 prob e = mom0 prob s := by linarith
    have e1 : mom1 prob e = mom1 prob s := by linarith
    rw [e0, e1]
    ring

theorem lutVar_eq_bruteVar (prob : ℕ → ℚ) (hp : ∀ j, 0 ≤ prob j) (n : ℕ)
    (hnorm : mom0 prob n = 1) (t : List ℕ)
    (ht : t ∈ incTuplesFrom (t.length) 0 (n - 1)) :
    lutVar prob n t = bruteVar prob n t +
      (sumIco (fun j => (j : ℚ) * prob j) 0 n) ^ 2 := by
  obtain ⟨hpw, hbd⟩ := incTuplesFrom_invariant t.length 0 (n - 1) t ht
  set mu := sumIco (fun j => (j : ℚ) * prob j) 0 n with hmu
  have hsort : ∀ r ∈ rangesFrom n 0 t, r.1 ≤ r.2 ∧ r.2 ≤ n := by
    refine rangesFrom_sorted n t 0 hpw ?_ (Nat.zero_le n)
    intro e he
    have := hbd e he
    omega
  have hmap : (rangesFrom n 0 t).map (fun r => lutTerm prob r.1 r.2) =
      (rangesFrom n 0 t).map (fun r => bruteTerm prob mu r.1 r.2 +
        ((2 * mu * mom1 prob r.2 - mu ^ 2 * mom0 prob r.2) -
         (2 * mu * mom1 prob r.1 - mu ^ 2 * mom0 prob r.1))) := by
    refine List.map_congr_left ?_
    intro r hr
    exact lutTerm_eq_bruteTerm prob hp mu r.1 r.2 (hsort r hr).1
  unfold lutVar bruteVar
  rw [hmap, list_sum_map_add]
  rw [rangesFrom_chain n t 0 (fun x => 2 * mu * mom1 prob x - mu ^ 2 * mom0 prob x)]
  have hmu1 : mu = mom1 prob n := by
    rw [hmu, sumIco_eq_sub _ 0 n (Nat.zero_le n)]
    unfold mom1
    simp [sumTo]
  simp only [mom0, mom1, sumTo] at *
  rw [hnorm, ← hmu1]
  ring

theorem incTuplesFrom_length : ∀ (m lo hi : ℕ) (t : List ℕ),
    t ∈ incTuplesFrom m lo hi → t.length = m := by
  intro m
  induction m with
  | zero =>
    intro lo hi t ht
    simp only [incTuplesFrom, List.mem_singleton] at ht
    simp [ht]
  | succ k ih =>
    intro lo hi t ht
    simp only [incTuplesFrom, List.mem_flatMap, List.mem_map] at ht
    obtain ⟨i, _, t', ht', rfl⟩ := ht
    simp [ih (i + 1) hi t' ht']

theorem lut_eq_brute_search (prob : ℕ → ℚ) (hp : ∀ j, 0 ≤ prob j) (n m : ℕ)
    (hnorm : mom0 prob n = 1) : lutSearch prob n m = bruteSearch prob n m := by
  unfold lutSearch bruteSearch
  refine argmaxFirst_congr _ _ _ ?_
  intro a a' ha ha'
  have hva : lutVar prob n a = bruteVar prob n a +
      (sumIco (fun j => (j : ℚ) * prob j) 0 n) ^ 2 := by
    refine lutVar_eq_bruteVar prob hp n hnorm a ?_
    rw [incTuplesFrom_length m 0 (n - 1) a ha]
    exact ha
  have hva' : lutVar prob n a' = bruteVar prob n a' +
      (sumIco (fun j => (j : ℚ) * prob j) 0 n) ^ 2 := by
    refine lutVar_eq_bruteVar prob hp n hnorm a' ?_
    rw [incTuplesFrom_length m 0 (n - 1) a' ha']
    exact ha'
  rw [hva, hva']
  exact add_lt_add_iff_right _

/-! ## Histogram validation and builders

Modelled from the spec: the histogram plumbing of the selectors
(`_validate_image_histogram` and the external histogram builder) is not in the
available source tree.  Following §2/§3/§4.1 and the behaviours pinned by the
tests: a precomputed histogram is either a `(counts, bin_centers)` pair or a
bare counts array whose centers are then taken to be `0, 1, ..., n-1`; zero
count bins are trimmed from both ends of a precomputed histogram; an image is
histogrammed by the builder (integer data: one bin per value from the minimum
to the maximum, so bin centers are consecutive integers of width one; float
data: `nbins` uniform bins between the minimum and maximum, centers at the bin
midpoints, the last bin closed). -/

/-- Trimming of zero-count bins from both ends of a (count, center) pair
list. -/
def trimPairs (ps : List (ℚ × ℚ)) : List (ℚ × ℚ) :=
  ((ps.dropWhile (fun p => decide (p.1 = 0))).reverse.dropWhile
    (fun p => decide (p.1 = 0))).reverse

/-- Modelled from the spec: the missing `_validate_image_histogram` handling of
a precomputed `(counts, bin_centers)` histogram — zero-count
edge bins are trimmed away (keeping counts and centers aligned). -/
def validateHistPair (counts centers : List ℚ) : List ℚ × List ℚ :=
  let t := trimPairs (counts.zip centers)
  (t.map Prod.fst, t.map Prod.snd)

/-- Minimum of an integer list (0 for the empty list). -/
def listMinI : List ℤ → ℤ
  | [] => 0
  | x :: xs => xs.foldl min x

/-- Maximum of an integer list (0 for the empty list). -/
def listMaxI : List ℤ → ℤ
  | [] => 0
  | x :: xs => xs.foldl max x

/-- Modelled from the spec: the external histogram-builder collaborator on
integer-valued images — one bin per value between the
image minimum and maximum (inclusive), counts are value multiplicities, bin
centers are the values themselves. -/
def buildHistInt (img : List ℤ) : List ℚ × List ℚ :=
  match img with
  | [] => ([], [])
  | _ :: _ =>
    let lo := listMinI img
    let hi := listMaxI img
    let n := (hi - lo).toNat + 1
    ((List.range n).map (fun j : ℕ => (img.count (lo + (j : ℤ)) : ℚ)),
     (List.range n).map (fun j : ℕ => ((lo + (j : ℤ) : ℤ) : ℚ)))

/-- Minimum of a rational list (0 for the empty list). -/
def listMinQ : List ℚ → ℚ
  | [] => 0
  | x :: xs => xs.foldl min x

/-- Maximum of a rational list (0 for the empty list). -/
def listMaxQ : List ℚ → ℚ
  | [] => 0
  | x :: xs => xs.foldl max x

/-- Modelled from the spec: the external histogram-builder collaborator on
float-valued images — `nbins` uniform bins over the
closed value range, a value going to bin `⌊(v - min)/width⌋` except that the
last bin is closed; centers are the bin midpoints.  A constant image gets a
single bin. -/
def buildHistFloat (img : List ℚ) (nbins : ℕ) : List ℚ × List ℚ :=
  match img, nbins with
  | [], _ => ([], [])
  | _, 0 => ([], [])
  | _ :: _, _ =>
    let lo := listMinQ img
    let hi := listMaxQ img
    if lo = hi then ([(img.length : ℚ)], [lo])
    else
      let width := (hi - lo) / (nbins : ℚ)
      let binOf := fun (v : ℚ) => min (Int.toNat ⌊(v - lo) / width⌋) (nbins - 1)
      ((List.range nbins).map
        (fun j : ℕ => ((img.countP (fun v => decide (binOf v = j))) : ℚ)),
       (List.range nbins).map
        (fun j : ℕ => lo + ((j : ℚ) + 1 / 2) * width))

/-! ## Global threshold selectors

Modelled from the spec: the selector implementations
(`skimage/threshold/_thresholding.py`) are not in the available source tree;
each core below follows §4.1 and the exact values pinned by the test suite.
Every selector returns a bin-center value; ties in an argmax go to the first
occurrence; a single-bin histogram (single distinct intensity) is the
degenerate case whose center is returned directly. -/

/-- Between-class variance of the split after bin `i`: `w0*w1*(mean0-mean1)²`
from cumulative sums of `count` and `count*value`. -/
def otsuVar (counts centers : List ℚ) (i : ℕ) : ℚ :=
  let c := fun j => counts.getD j 0
  let b := fun j => centers.getD j 0
  let n := counts.length
  let w1 := sumTo c (i + 1)
  let w2 := sumTo c n - w1
  let m1 := sumTo (fun j => c j * b j) (i + 1) / w1
  let m2 := (sumTo (fun j => c j * b j) n - sumTo (fun j => c j * b j) (i + 1)) / w2
  w1 * w2 * (m1 - m2) ^ 2

/-- Modelled from the spec: the missing `otsu` selector on a validated
histogram — bin center of the first split
maximizing the between-class variance; a single-bin histogram returns its
center. -/
def otsuCore (counts centers : List ℚ) : Option ℚ :=
  if counts.length = 0 then none
  else if centers.length = 1 then some (centers.getD 0 0)
  else
    (argmaxFirst (otsuVar counts centers) (List.range (counts.length - 1))).map
      (fun i => centers.getD i 0)

/-- Yen's criterion at split `i`, from prefix sums of the normalized histogram
and of its squares; the logarithm (a float transcendental) is kept abstract as
the parameter `logQ`. -/
def yenCrit (logQ : ℚ → ℚ) (counts : List ℚ) (i : ℕ) : ℚ :=
  let n := counts.length
  let tot := counts.sum
  let pmf := fun j => counts.getD j 0 / tot
  let p1 := sumTo pmf (i + 1)
  let p1sq := sumTo (fun j => pmf j ^ 2) (i + 1)
  let totsq := sumTo (fun j => pmf j ^ 2) n
  logQ ((p1 * (1 - p1)) ^ 2 / (p1sq * (totsq - p1sq)))

/-- Modelled from the spec: the missing `yen` selector on a validated
histogram — bin center of the first split
maximizing the criterion; a single-bin histogram returns its center. -/
def yenCore (logQ : ℚ → ℚ) (counts centers : List ℚ) : Option ℚ :=
  if counts.length = 0 then none
  else if centers.length = 1 then some (centers.getD 0 0)
  else
    (argmaxFirst (yenCrit logQ counts) (List.range (counts.length - 1))).map
      (fun i => centers.getD i 0)

/-- Cumulative-sum mean of the bins up to and including bin `i` (the isodata
`lower` array): average value of all pixels in bin `i` or lower. -/
def isoLower (counts centers : List ℚ) (i : ℕ) : ℚ :=
  sumTo (fun j => counts.getD j 0 * centers.getD j 0) (i + 1) /
    sumTo (fun j => counts.getD j 0) (i + 1)

/-- Mean of the bins strictly above bin `i` (the isodata `higher` array). -/
def isoHigher (counts centers : List ℚ) (i : ℕ) : ℚ :=
  (sumTo (fun j => counts.getD j 0 * centers.getD j 0) counts.length -
      sumTo (fun j => counts.getD j 0 * centers.getD j 0) (i + 1)) /
    (sumTo (fun j => counts.getD j 0) counts.length -
      sumTo (fun j => counts.getD j 0) (i + 1))

/-- Mean of means at split `i` (the isodata `all_mean` array). -/
def isoAm (counts centers : List ℚ) (i : ℕ) : ℚ :=
  (isoLower counts centers i + isoHigher counts centers i) / 2

/-- Modelled from the spec: the missing `isodata` selector in its
all-thresholds (`return_all`) form — every bin center `t` (omitting the
last bin) whose mean-of-means `(mean(≤t)+mean(>t))/2` lies within one bin
width above `t`; these are exactly the fixed points and cycle values of the
isodata iteration, in ascending order.  A single-bin histogram returns its
center list. -/
def isodataAllCore (counts centers : List ℚ) : List ℚ :=
  if counts.length ≤ 1 then centers
  else
    ((List.range (counts.length - 1)).filter (fun i =>
      decide (0 ≤ isoAm counts centers i - centers.getD i 0) &&
      decide (isoAm counts centers i - centers.getD i 0 <
        centers.getD 1 0 - centers.getD 0 0))).map
      (fun i => centers.getD i 0)

/-- Modelled from the spec: the missing `isodata` selector in scalar form —
the first returned threshold. -/
def isodataCore (counts centers : List ℚ) : Option ℚ :=
  (isodataAllCore counts centers).head?

/-- One pass of the size-3 moving-average smoothing used by the minimum
selector, with reflected boundaries. -/
def smooth3 (l : List ℚ) : List ℚ :=
  (List.range l.length).map (fun i =>
    (l.getD (i - 1) 0 + l.getD i 0 + l.getD (min (i + 1) (l.length - 1)) 0) / 3)

/-- Plateau-tolerant local-maxima scan of the minimum selector: walking left
to right with a direction state, an index is recorded when the walk turns
downward. -/
def fmGo (l : List ℚ) : ℕ → ℕ → Bool → List ℕ
  | 0, _, _ => []
  | steps + 1, i, up =>
    if up then
      if l.getD (i + 1) 0 < l.getD i 0 then i :: fmGo l steps (i + 1) false
      else fmGo l steps (i + 1) true
    else
      if l.getD i 0 < l.getD (i + 1) 0 then fmGo l steps (i + 1) true
      else fmGo l steps (i + 1) false

/-- Indices of the local maxima of a histogram (plateau-tolerant scan). -/
def findMaxima (l : List ℚ) : List ℕ := fmGo l (l.length - 1) 0 true

/-- Smoothing loop of the minimum selector: smooth, count the local maxima,
stop as soon as fewer than three remain or the iteration budget runs out;
returns the final smoothed histogram, its maxima and the loop counter. -/
def minLoop : List ℚ → ℕ → ℕ → List ℚ × List ℕ × ℕ
  | s, counter, 0 => (s, findMaxima s, counter)
  | s, counter, fuel + 1 =>
    let s2 := smooth3 s
    let m := findMaxima s2
    if m.length < 3 then (s2, m, counter)
    else if fuel = 0 then (s2, m, counter)
    else minLoop s2 (counter + 1) fuel

/-- Fold step of the first-occurrence argmin over values with their indices. -/
def argminIdxGo : List ℚ → ℕ → ℕ → ℚ → ℕ
  | [], _, bi, _ => bi
  | x :: xs, i, bi, bv =>
    if x < bv then argminIdxGo xs (i + 1) i x else argminIdxGo xs (i + 1) bi bv

/-- First-occurrence argmin of a list of values (0 for the empty list). -/
def argminIdx : List ℚ → ℕ
  | [] => 0
  | x :: xs => argminIdxGo xs 1 0 x

/-- Modelled from the spec: the missing `minimum` selector on a validated
histogram — the histogram is repeatedly
smoothed until exactly two local maxima remain; the bin center of the lowest
point between them is returned.  Exceeding the iteration budget, or ending
with a maxima count other than two (e.g. flat histograms), is the
`NotBimodal` failure, modelled as `none`. -/
def minimumCore (budget : ℕ) (counts centers : List ℚ) : Option ℚ :=
  if budget = 0 then none
  else
    let r := minLoop counts 0 budget
    let m := r.2.1
    if m.length ≠ 2 then none
    else if r.2.2 = budget - 1 then none
    else
      let i0 := m.getD 0 0
      let i1 := m.getD 1 0
      let seg := (r.1.drop i0).take (i1 + 1 - i0)
      some (centers.getD (i0 + argminIdx seg) 0)

/-- Modelled from the spec: the missing `mean` selector — the arithmetic mean
of all sample values. -/
def meanImage (img : List ℚ) : ℚ := img.sum / (img.length : ℚ)

/-- Modelled from the spec: the missing `multiotsu` selector on a validated
histogram — the counts are normalized to
probabilities, the input must have at least `classes` distinct
nonzero-probability bins (else the `InvalidArgument` failure, modelled as
`none`), and the `classes - 1` cut indices found by the lookup-table search
are mapped to bin centers. -/
def multiotsuCore (classes : ℕ) (counts centers : List ℚ) : Option (List ℚ) :=
  let n := counts.length
  let tot := counts.sum
  let prob := fun j => counts.getD j 0 / tot
  let nvalues := ((List.range n).filter (fun j => decide (counts.getD j 0 ≠ 0))).length
  if nvalues < classes then none
  else (lutSearch prob n (classes - 1)).map (fun t => t.map (fun i => centers.getD i 0))

/-! ### Argument-path wrappers: raw image, `(counts, centers)` pair, bare
counts array.  The image path histograms the image with the builder (no
trimming, the builder never produces zero-count edge bins); the pair path
trims; the bare-counts path first takes `0, 1, ..., n-1` as centers, then
trims. -/

/-- Centers `0, 1, ..., n-1` assumed for a bare counts array. -/
def arangeCenters (n : ℕ) : List ℚ := (List.range n).map (fun j : ℕ => (j : ℚ))

def otsuImage (img : List ℤ) : Option ℚ :=
  otsuCore (buildHistInt img).1 (buildHistInt img).2

def otsuHistPair (counts centers : List ℚ) : Option ℚ :=
  otsuCore (validateHistPair counts centers).1 (validateHistPair counts centers).2

def otsuHistCounts (counts : List ℚ) : Option ℚ :=
  otsuHistPair counts (arangeCenters counts.length)

def yenImage (logQ : ℚ → ℚ) (img : List ℤ) : Option ℚ :=
  yenCore logQ (buildHistInt img).1 (buildHistInt img).2

def yenHistPair (logQ : ℚ → ℚ) (counts centers : List ℚ) : Option ℚ :=
  yenCore logQ (validateHistPair counts centers).1 (validateHistPair counts centers).2

def yenHistCounts (logQ : ℚ → ℚ) (counts : List ℚ) : Option ℚ :=
  yenHistPair logQ counts (arangeCenters counts.length)

def isodataImage (img : List ℤ) : Option ℚ :=
  isodataCore (buildHistInt img).1 (buildHistInt img).2

def isodataAllImage (img : List ℤ) : List ℚ :=
  isodataAllCore (buildHistInt img).1 (buildHistInt img).2

def isodataAllImageFloat (img : List ℚ) (nbins : ℕ) : List ℚ :=
  isodataAllCore (buildHistFloat img nbins).1 (buildHistFloat img nbins).2

def isodataHistPair (counts centers : List ℚ) : Option ℚ :=
  isodataCore (validateHistPair counts centers).1 (validateHistPair counts centers).2

def isodataHistCounts (counts : List ℚ) : Option ℚ :=
  isodataHistPair counts (arangeCenters counts.length)

def minimumImage (budget : ℕ) (img : List ℤ) : Option ℚ :=
  minimumCore budget (buildHistInt img).1 (buildHistInt img).2

def minimumHistPair (budget : ℕ) (counts centers : List ℚ) : Option ℚ :=
  minimumCore budget (validateHistPair counts centers).1
    (validateHistPair counts centers).2

def minimumHistCounts (budget : ℕ) (counts : List ℚ) : Option ℚ :=
  minimumHistPair budget counts (arangeCenters counts.length)

def multiotsuImage (classes : ℕ) (img : List ℤ) : Option (List ℚ) :=
  multiotsuCore classes (buildHistInt img).1 (buildHistInt img).2

theorem getD_nonneg (prob : List ℚ) (h : ∀ p ∈ prob, 0 ≤ p) (j : ℕ) :
    0 ≤ prob.getD j 0 := by
  by_cases hj : j < prob.length
  · rw [List.getD_eq_getElem prob 0 hj]
    exact h _ (List.getElem_mem hj)
  · rw [List.getD_eq_default prob 0 (le_of_not_lt hj)]

theorem mom0_getD (prob : List ℚ) :
    mom0 (fun j => prob.getD j 0) prob.length = prob.sum := by
  unfold mom0
  rw [sumTo_eq_finset]
  exact list_sum_getD prob

/-- C2: for every normalized probability histogram (nonnegative entries
summing to one) and every threshold count, the lookup-table multi-Otsu index
search returns exactly the same index tuple as the brute-force recursive
search (exact equality, bit-identical in the exact-arithmetic model). -/
theorem multiotsu_lut_eq_bruteforce (prob : List ℚ) (m : ℕ)
    (hp : ∀ p ∈ prob, 0 ≤ p) (hnorm : prob.sum = 1) :
    getMultiotsuThreshIndicesLut prob m = getMultiotsuThreshIndices prob m := by
  unfold getMultiotsuThreshIndicesLut getMultiotsuThreshIndices
  refine lut_eq_brute_search _ (getD_nonneg prob hp) prob.length m ?_
  rw [mom0_getD prob]
  exact hnorm

/-- Witness for C2: on the concrete normalized histogram `[1/2, 1/4, 1/4]`
with one threshold, both searches return the index tuple `[0]`. -/
theorem multiotsu_lut_eq_bruteforce_witness :
    getMultiotsuThreshIndicesLut [1/2, 1/4, 1/4] 1 =
      getMultiotsuThreshIndices [1/2, 1/4, 1/4] 1 ∧
    getMultiotsuThreshIndices [1/2, 1/4, 1/4] 1 = some [0] := by
  refine ⟨multiotsu_lut_eq_bruteforce [1/2, 1/4, 1/4] 1 (by norm_num) (by norm_num), ?_⟩
  norm_num [getMultiotsuThreshIndices, bruteSearch, incTuplesFrom,
    argmaxFirst, argmaxGo, bruteVar, bruteTerm, rangesFrom, sumIco, sumTo,
    List.range']

/-! ## Pixel-level means, for stating the isodata fixed-point property -/

/-- Mean of the pixels of an integer image that are `≤ t` (0 if there are
none). -/
def meanLE (img : List ℤ) (t : ℚ) : ℚ :=
  let sel := img.filter (fun p : ℤ => decide ((p : ℚ) ≤ t))
  (sel.map (fun p : ℤ => (p : ℚ))).sum / (sel.length : ℚ)

/-- Mean of the pixels of an integer image that are `> t` (0 if there are
none). -/
def meanGT (img : List ℤ) (t : ℚ) : ℚ :=
  let sel := img.filter (fun p : ℤ => decide (t < (p : ℚ)))
  (sel.map (fun p : ℤ => (p : ℚ))).sum / (sel.length : ℚ)

theorem foldl_min_le (xs : List ℤ) : ∀ (x : ℤ),
    xs.foldl min x ≤ x ∧ ∀ p ∈ xs, xs.foldl min x ≤ p := by
  induction xs with
  | nil => intro x; exact ⟨le_refl x, by simp⟩
  | cons y ys ih =>
    intro x
    rw [List.foldl_cons]
    obtain ⟨h1, h2⟩ := ih (min x y)
    refine ⟨le_trans h1 (min_le_left x y), ?_⟩
    intro p hp
    rcases List.mem_cons.mp hp with rfl | hp'
    · exact le_trans h1 (min_le_right x p)
    · exact h2 p hp'

theorem foldl_min_mem (xs : List ℤ) : ∀ (x : ℤ),
    xs.foldl min x = x ∨ xs.foldl min x ∈ xs := by
  induction xs with
  | nil => intro x; exact Or.inl rfl
  | cons y ys ih =>
    intro x
    rw [List.foldl_cons]
    rcases ih (min x y) with h | h
    · rcases min_choice x y with hc | hc
      · exact Or.inl (h.trans hc)
      · exact Or.inr (List.mem_cons.mpr (Or.inl (h.trans hc)))
    · exact Or.inr (List.mem_cons_of_mem y h)

theorem foldl_max_le (xs : List ℤ) : ∀ (x : ℤ),
    x ≤ xs.foldl max x ∧ ∀ p ∈ xs, p ≤ xs.foldl max x := by
  induction xs with
  | nil => intro x; exact ⟨le_refl x, by simp⟩
  | cons y ys ih =>
    intro x
    rw [List.foldl_cons]
    obtain ⟨h1, h2⟩ := ih (max x y)
    refine ⟨le_trans (le_max_left x y) h1, ?_⟩
    intro p hp
    rcases List.mem_cons.mp hp with rfl | hp'
    · exact le_trans (le_max_right x p) h1
    · exact h2 p hp'

theorem foldl_max_mem (xs : List ℤ) : ∀ (x : ℤ),
    xs.foldl max x = x ∨ xs.foldl max x ∈ xs := by
  induction xs with
  | nil => intro x; exact Or.inl rfl
  | cons y ys ih =>
    intro x
    rw [List.foldl_cons]
    rcases ih (max x y) with h | h
    · rcases max_choice x y with hc | hc
      · exact Or.inl (h.trans hc)
      · exact Or.inr (List.mem_cons.mpr (Or.inl (h.trans hc)))
    · exact Or.inr (List.mem_cons_of_mem y h)

theorem listMinI_le (img : List ℤ) (p : ℤ) (hp : p ∈ img) : listMinI img ≤ p := by
  cases img with
  | nil => cases hp
  | cons x xs =>
    rcases List.mem_cons.mp hp with rfl | hp'
    · exact (foldl_min_le xs p).1
    · exact (foldl_min_le xs x).2 p hp'

theorem listMinI_mem (img : List ℤ) (h : img ≠ []) : listMinI img ∈ img := by
  cases img with
  | nil => exact absurd rfl h
  | cons x xs =>
    rcases foldl_min_mem xs x with h' | h'
    · exact List.mem_cons.mpr (Or.inl h')
    · exact List.mem_cons_of_mem x h'

theorem le_listMaxI (img : List ℤ) (p : ℤ) (hp : p ∈ img) : p ≤ listMaxI img := by
  cases img with
  | nil => cases hp
  | cons x xs =>
    rcases List.mem_cons.mp hp with rfl | hp'
    · exact (foldl_max_le xs p).1
    · exact (foldl_max_le xs x).2 p hp'

theorem listMaxI_mem (img : List ℤ) (h : img ≠ []) : listMaxI img ∈ img := by
  cases img with
  | nil => exact absurd rfl h
  | cons x xs =>
    rcases foldl_max_mem xs x with h' | h'
    · exact List.mem_cons.mpr (Or.inl h')
    · exact List.mem_cons_of_mem x h'

theorem sum_map_one {α : Type} (l : List α) :
    (l.map (fun _ => (1 : ℚ))).sum = (l.length : ℚ) := by
  induction l with
  | nil => simp
  | cons x xs ih => simp [ih]; ring

theorem filter_split_sum {α : Type} (l : List α) (q : α → Bool) (w : α → ℚ) :
    ((l.filter q).map w).sum + ((l.filter (fun a => !(q a))).map w).sum
      = (l.map w).sum := by
  induction l with
  | nil => simp
  | cons x xs ih =>
    by_cases hx : q x
    · simp only [List.filter_cons, hx, Bool.not_true, if_pos, List.map_cons,
        List.sum_cons, if_neg (by simp : ¬ (false = true))]
      rw [← ih]
      ring
    · have hx' : q x = false := Bool.eq_false_iff.mpr hx
      simp only [List.filter_cons, hx', Bool.not_false, List.map_cons,
        List.sum_cons, if_neg (by simp : ¬ (false = true)), if_true]
      rw [← ih]
      ring

theorem sumTo_congr (f g : ℕ → ℚ) (m : ℕ) (h : ∀ j, j < m → f j = g j) :
    sumTo f m = sumTo g m := by
  rw [sumTo_eq_finset, sumTo_eq_finset]
  exact Finset.sum_congr rfl fun j hj => h j (Finset.mem_range.mp hj)

theorem getD_map_range (f : ℕ → ℚ) (n i : ℕ) (h : i < n) :
    ((List.range n).map f).getD i 0 = f i := by
  rw [List.getD_eq_getElem ((List.range n).map f) 0 (by simpa using h)]
  simp

theorem filter_lt_succ_sum (l : List ℤ) (K : ℤ) (w : ℤ → ℚ) :
    ((l.filter (fun p => decide (p < K + 1))).map w).sum
      = ((l.filter (fun p => decide (p < K))).map w).sum + (l.count K : ℚ) * w K := by
  induction l with
  | nil => simp
  | cons q l ih =>
    rw [List.count_cons]
    rcases lt_trichotomy q K with hq | rfl | hq
    · have h1 : (decide (q < K + 1)) = true := decide_eq_true (by omega)
      have h0 : (decide (q < K)) = true := decide_eq_true hq
      have hne : ¬ (q == K) = true := by
        simp only [beq_iff_eq]
        omega
      simp only [List.filter_cons, h1, h0, if_pos, List.map_cons, List.sum_cons,
        if_neg hne, Nat.add_zero]
      rw [ih]
      ring
    · have h1 : (decide (q < q + 1)) = true := decide_eq_true (by omega)
      have h0 : ¬ (decide (q < q)) = true := by simp
      have heq : (q == q) = true := by simp
      simp only [List.filter_cons, h1, if_pos, h0, if_neg, List.map_cons,
        List.sum_cons, heq, if_true]
      rw [ih]
      push_cast
      ring
    · have h1 : ¬ (decide (q < K + 1)) = true := by
        simp only [decide_eq_true_eq]
        omega
      have h0 : ¬ (decide (q < K)) = true := by
        simp only [decide_eq_true_eq]
        omega
      have hne : ¬ (q == K) = true := by
        simp only [beq_iff_eq]
        omega
      simp only [List.filter_cons, if_neg h1, if_neg h0, if_neg hne, Nat.add_zero]
      exact ih

theorem count_filter_sum (l : List ℤ) (lo : ℤ) (w : ℤ → ℚ)
    (h : ∀ p ∈ l, lo ≤ p) : ∀ (m : ℕ),
    ∑ j ∈ Finset.range m, (l.count (lo + j) : ℚ) * w (lo + j)
      = ((l.filter (fun p => decide (p < lo + m))).map w).sum := by
  intro m
  induction m with
  | zero =>
    have hempty : l.filter (fun p => decide (p < lo + (0 : ℕ))) = [] := by
      rw [List.filter_eq_nil_iff]
      intro p hp
      simp only [decide_eq_true_eq]
      have := h p hp
      omega
    rw [hempty]
    simp
  | succ m ih =>
    rw [Finset.sum_range_succ, ih]
    have hc : (lo + ((m + 1 : ℕ) : ℤ)) = (lo + m) + 1 := by push_cast; ring
    rw [hc, filter_lt_succ_sum l (lo + m) w]

/-- Number of bins of the integer-image histogram. -/
def histN (img : List ℤ) : ℕ := (listMaxI img - listMinI img).toNat + 1

/-- Counts list of the integer-image histogram. -/
def countsInt (img : List ℤ) : List ℚ :=
  (List.range (histN img)).map (fun j : ℕ => ((img.count (listMinI img + (j : ℤ))) : ℚ))

/-- Centers list of the integer-image histogram. -/
def centersInt (img : List ℤ) : List ℚ :=
  (List.range (histN img)).map (fun j : ℕ => ((listMinI img + (j : ℤ) : ℤ) : ℚ))

theorem buildHistInt_eq (img : List ℤ) (h : img ≠ []) :
    buildHistInt img = (countsInt img, centersInt img) := by
  cases img with
  | nil => exact absurd rfl h
  | cons x xs => rfl

theorem countsInt_length (img : List ℤ) : (countsInt img).length = histN img := by
  rw [countsInt, List.length_map, List.length_range]

theorem centersInt_length (img : List ℤ) : (centersInt img).length = histN img := by
  rw [centersInt, List.length_map, List.length_range]

theorem countsInt_getD (img : List ℤ) (j : ℕ) (hj : j < histN img) :
    (countsInt img).getD j 0 = ((img.count (listMinI img + j) : ℚ)) := by
  rw [countsInt]
  exact getD_map_range _ _ j hj

theorem centersInt_getD (img : List ℤ) (j : ℕ) (hj : j < histN img) :
    (centersInt img).getD j 0 = ((listMinI img + (j : ℤ) : ℤ) : ℚ) := by
  rw [centersInt]
  exact getD_map_range _ _ j hj

theorem count_filter_len (l : List ℤ) (lo : ℤ)
    (h : ∀ p ∈ l, lo ≤ p) (m : ℕ) :
    ∑ j ∈ Finset.range m, (l.count (lo + (j : ℤ)) : ℚ)
      = ((l.filter (fun p : ℤ => decide (p < lo + (m : ℤ)))).length : ℚ) := by
  have h1 := count_filter_sum l lo (fun _ => (1 : ℚ)) h m
  rw [sum_map_one] at h1
  rw [← h1]
  exact Finset.sum_congr rfl fun j _ => by ring

theorem sumTo_counts_eq (img : List ℤ) (m : ℕ) (hm : m ≤ histN img) :
    sumTo (fun j => (countsInt img).getD j 0) m
      = ((img.filter (fun p : ℤ => decide (p < listMinI img + (m : ℤ)))).length : ℚ) := by
  rw [sumTo_eq_finset,
    ← count_filter_len img (listMinI img) (fun p hp => listMinI_le img p hp) m]
  refine Finset.sum_congr rfl fun j hj => ?_
  exact countsInt_getD img j (lt_of_lt_of_le (Finset.mem_range.mp hj) hm)

theorem sumTo_countsv_eq (img : List ℤ) (m : ℕ) (hm : m ≤ histN img) :
    sumTo (fun j => (countsInt img).getD j 0 * (centersInt img).getD j 0) m
      = ((img.filter (fun p : ℤ => decide (p < listMinI img + (m : ℤ)))).map
          (fun p : ℤ => (p : ℚ))).sum := by
  rw [sumTo_eq_finset,
    ← count_filter_sum img (listMinI img) (fun z => (z : ℚ))
      (fun p hp => listMinI_le img p hp) m]
  refine Finset.sum_congr rfl fun j hj => ?_
  have hjn := lt_of_lt_of_le (Finset.mem_range.mp hj) hm
  rw [countsInt_getD img j hjn, centersInt_getD img j hjn]

theorem filter_lt_eq_filter_le (img : List ℤ) (lo : ℤ) (i : ℕ) :
    img.filter (fun p : ℤ => decide (p < lo + ((i + 1 : ℕ) : ℤ)))
      = img.filter (fun p : ℤ => decide ((p : ℚ) ≤ ((lo + (i : ℤ) : ℤ) : ℚ))) := by
  refine List.filter_congr fun p _ => ?_
  simp only [decide_eq_decide]
  rw [Int.cast_le]
  push_cast
  omega

theorem meanLE_eq_isoLower (img : List ℤ) (i : ℕ) (hi2 : i + 1 < histN img) :
    meanLE img ((listMinI img + (i : ℤ) : ℤ) : ℚ)
      = isoLower (countsInt img) (centersInt img) i := by
  simp only [meanLE, isoLower]
  rw [sumTo_countsv_eq img (i + 1) (le_of_lt hi2),
    sumTo_counts_eq img (i + 1) (le_of_lt hi2),
    filter_lt_eq_filter_le img (listMinI img) i]

theorem filter_all_eq_self (img : List ℤ) :
    img.filter (fun p : ℤ => decide (p < listMinI img + ((histN img : ℕ) : ℤ))) = img := by
  rw [List.filter_eq_self]
  intro p hp
  have h1 := le_listMaxI img p hp
  have h2 := listMinI_le img p hp
  simp only [decide_eq_true_eq]
  unfold histN at *
  omega

theorem meanGT_eq_isoHigher (img : List ℤ) (i : ℕ) (hi2 : i + 1 < histN img) :
    meanGT img ((listMinI img + (i : ℤ) : ℤ) : ℚ)
      = isoHigher (countsInt img) (centersInt img) i := by
  simp only [meanGT, isoHigher]
  rw [countsInt_length img]
  rw [sumTo_countsv_eq img (i + 1) (le_of_lt hi2),
    sumTo_counts_eq img (i + 1) (le_of_lt hi2),
    sumTo_countsv_eq img (histN img) (le_refl _),
    sumTo_counts_eq img (histN img) (le_refl _),
    filter_all_eq_self img,
    filter_lt_eq_filter_le img (listMinI img) i]
  have hq : img.filter (fun p : ℤ => decide (((listMinI img + (i : ℤ) : ℤ) : ℚ) < (p : ℚ)))
      = img.filter (fun p : ℤ =>
          !(decide ((p : ℚ) ≤ ((listMinI img + (i : ℤ) : ℤ) : ℚ)))) := by
    refine List.filter_congr fun p _ => ?_
    rw [← decide_not]
    simp only [decide_eq_decide]
    exact (not_le).symm
  rw [hq]
  have hsum := filter_split_sum img
    (fun p : ℤ => decide ((p : ℚ) ≤ ((listMinI img + (i : ℤ) : ℤ) : ℚ)))
    (fun p : ℤ => (p : ℚ))
  have hlen := filter_split_sum img
    (fun p : ℤ => decide ((p : ℚ) ≤ ((listMinI img + (i : ℤ) : ℤ) : ℚ)))
    (fun _ : ℤ => (1 : ℚ))
  rw [sum_map_one, sum_map_one, sum_map_one] at hlen
  congr 1
  · linarith
  · linarith

/-- C1 (amended): for every integer-valued image with at least two distinct
pixel values, every threshold `t` returned by `isodata` (the scalar result is
the head of the `return_all` sequence, so both are covered) satisfies the
fixed-point equation `floor((mean(pixels ≤ t) + mean(pixels > t)) / 2) = t`.
For float images the histogram bins are coarser than single values and the
returned thresholds are bin centers that need not be integers, so the equation
as stated fails (see the counterexample). -/
theorem isodata_returns_fixed_points (img : List ℤ) (a b : ℤ)
    (ha : a ∈ img) (hb : b ∈ img) (hab : a ≠ b) :
    ∀ t ∈ isodataAllImage img,
      ((⌊(meanLE img t + meanGT img t) / 2⌋ : ℤ) : ℚ) = t := by
  intro t ht
  have himg : img ≠ [] := by
    intro h
    rw [h] at ha
    cases ha
  have hlt : listMinI img < listMaxI img := by
    have h1 := listMinI_le img a ha
    have h2 := le_listMaxI img a ha
    have h3 := listMinI_le img b hb
    have h4 := le_listMaxI img b hb
    omega
  have hn2 : 2 ≤ histN img := by
    unfold histN
    omega
  simp only [isodataAllImage, buildHistInt_eq img himg] at ht
  unfold isodataAllCore at ht
  rw [countsInt_length img, if_neg (by omega : ¬ histN img ≤ 1)] at ht
  obtain ⟨i, hifil, hieq⟩ := List.mem_map.mp ht
  obtain ⟨hirange, hcond⟩ := List.mem_filter.mp hifil
  have hin : i < histN img - 1 := List.mem_range.mp hirange
  have hi1n : i + 1 < histN img := by omega
  have hi0 : i < histN img := by omega
  have hti : t = ((listMinI img + (i : ℤ) : ℤ) : ℚ) := by
    rw [← hieq, centersInt_getD img i hi0]
  subst hti
  have hw : (centersInt img).getD 1 0 - (centersInt img).getD 0 0 = 1 := by
    rw [centersInt_getD img 1 (by omega), centersInt_getD img 0 (by omega)]
    push_cast
    ring
  rw [Bool.and_eq_true, decide_eq_true_eq, decide_eq_true_eq] at hcond
  obtain ⟨hc1, hc2⟩ := hcond
  rw [hw] at hc2
  rw [centersInt_getD img i hi0] at hc1 hc2
  simp only [isoAm] at hc1 hc2
  rw [meanLE_eq_isoLower img i hi1n, meanGT_eq_isoHigher img i hi1n]
  have hfl : ⌊(isoLower (countsInt img) (centersInt img) i +
      isoHigher (countsInt img) (centersInt img) i) / 2⌋
      = listMinI img + (i : ℤ) := by
    rw [Int.floor_eq_iff]
    constructor
    · push_cast at hc1 ⊢
      linarith
    · push_cast at hc2 ⊢
      linarith
  rw [hfl]

/-- Witness for C1 at the concrete image `[0, 1, 1, 2]`: the threshold `0` is
returned by `isodata` and satisfies the fixed-point equation. -/
theorem isodata_returns_fixed_points_witness :
    ((⌊(meanLE [0, 1, 1, 2] 0 + meanGT [0, 1, 1, 2] 0) / 2⌋ : ℤ) : ℚ) = 0 := by
  have hbh : buildHistInt [0, 1, 1, 2] = ([1, 2, 1], [0, 1, 2]) := by
    have hr : List.range (Int.toNat 2 + 1) = [0, 1, 2] := rfl
    norm_num [buildHistInt, listMinI, listMaxI, min_def, max_def,
      List.count_cons, List.count_nil, hr, beq_iff_eq]
  have hcore : isodataAllCore [1, 2, 1] [0, 1, 2] = [0, 1] := by
    have hr : List.range 2 = [0, 1] := rfl
    norm_num [isodataAllCore, isoAm, isoLower, isoHigher, sumTo, hr,
      List.filter_cons, List.filter_nil]
  have hmem : (0 : ℚ) ∈ isodataAllImage [0, 1, 1, 2] := by
    simp only [isodataAllImage, hbh]
    rw [hcore]
    norm_num
  exact isodata_returns_fixed_points [0, 1, 1, 2] 0 2 (by norm_num)
    (by norm_num) (by norm_num) 0 hmem

/-- Mean of the pixels of a rational-valued (float) image that are `≤ t`. -/
def meanLEQ (img : List ℚ) (t : ℚ) : ℚ :=
  let sel := img.filter (fun p : ℚ => decide (p ≤ t))
  sel.sum / (sel.length : ℚ)

/-- Mean of the pixels of a rational-valued (float) image that are `> t`. -/
def meanGTQ (img : List ℚ) (t : ℚ) : ℚ :=
  let sel := img.filter (fun p : ℚ => decide (t < p))
  sel.sum / (sel.length : ℚ)

/-- Counterexample to C1 as stated, on a float image: with the two-pixel float
image `[1/2, 3/2]` histogrammed into two bins, `isodata` returns the bin
center `3/4`, whose mean-of-means is `1`, and `floor(1) = 1 ≠ 3/4` — the
fixed-point equation holds in the bin domain but not in the claimed
floor form. -/
theorem isodata_fixed_point_float_cex :
    (3 / 4 : ℚ) ∈ isodataAllImageFloat [1 / 2, 3 / 2] 2 ∧
    ((⌊(meanLEQ [1 / 2, 3 / 2] (3 / 4) + meanGTQ [1 / 2, 3 / 2] (3 / 4)) / 2⌋ : ℤ) : ℚ)
      ≠ 3 / 4 := by
  constructor
  · have hbh : buildHistFloat [1 / 2, 3 / 2] 2 = ([1, 1], [3 / 4, 5 / 4]) := by
      have hr : List.range 2 = [0, 1] := rfl
      norm_num [buildHistFloat, listMinQ, listMaxQ, min_def, max_def,
        List.countP_cons, List.countP_nil, hr]
    have hcore : isodataAllCore [1, 1] [3 / 4, 5 / 4] = [3 / 4] := by
      have hr : List.range 1 = [0] := rfl
      norm_num [isodataAllCore, isoAm, isoLower, isoHigher, sumTo, hr,
        List.filter_cons, List.filter_nil]
    simp only [isodataAllImageFloat, hbh]
    rw [hcore]
    norm_num
  · have h1 : meanLEQ [1 / 2, 3 / 2] (3 / 4) = 1 / 2 := by
      norm_num [meanLEQ, List.filter_cons, List.filter_nil]
    have h2 : meanGTQ [1 / 2, 3 / 2] (3 / 4) = 3 / 2 := by
      norm_num [meanGTQ, List.filter_cons, List.filter_nil]
    rw [h1, h2]
    norm_num

theorem sumTo_add (f g : ℕ → ℚ) (m : ℕ) :
    sumTo (fun j => f j + g j) m = sumTo f m + sumTo g m := by
  rw [sumTo_eq_finset, sumTo_eq_finset, sumTo_eq_finset, ← Finset.sum_add_distrib]

theorem sumTo_smul (f : ℕ → ℚ) (c : ℚ) (m : ℕ) :
    sumTo (fun j => c * f j) m = c * sumTo f m := by
  rw [sumTo_eq_finset, sumTo_eq_finset, Finset.mul_sum]

theorem sumTo_div_const (f : ℕ → ℚ) (c : ℚ) (m : ℕ) :
    sumTo (fun j => f j / c) m = sumTo f m / c := by
  rw [sumTo_eq_finset, sumTo_eq_finset, Finset.sum_div]

theorem sumTo_zero_fun (m : ℕ) : sumTo (fun _ => (0 : ℚ)) m = 0 := by
  rw [sumTo_eq_finset]
  exact Finset.sum_const_zero

theorem sumTo_zero_of (f : ℕ → ℚ) (m : ℕ) (hnn : ∀ j, j < m → 0 ≤ f j)
    (h : sumTo f m = 0) : ∀ j, j < m → f j = 0 := by
  rw [sumTo_eq_finset] at h
  intro j hj
  exact (Finset.sum_eq_zero_iff_of_nonneg
    (fun j hj => hnn j (Finset.mem_range.mp hj))).mp h j (Finset.mem_range.mpr hj)

theorem flatMap_singleton_tuples (l : List ℕ) :
    (l.flatMap (fun i => [[i]])) = l.map (fun i => [i]) := by
  induction l with
  | nil => rfl
  | cons x xs ih => simp only [List.flatMap_cons, List.map_cons, ih]; rfl

theorem incTuples_one (lo hi : ℕ) :
    incTuplesFrom 1 lo hi = (List.range' lo (hi - lo)).map (fun i => [i]) := by
  show (List.range' lo (hi - 0 - lo)).flatMap
      (fun i => (incTuplesFrom 0 (i + 1) hi).map (fun t => i :: t))
    = (List.range' lo (hi - lo)).map (fun i => [i])
  rw [Nat.sub_zero]
  exact flatMap_singleton_tuples _

theorem bruteVar_single (prob : ℕ → ℚ) (n i : ℕ) :
    bruteVar prob n [i]
      = bruteTerm prob (sumIco (fun j => (j : ℚ) * prob j) 0 n) 0 (i + 1)
      + bruteTerm prob (sumIco (fun j => (j : ℚ) * prob j) 0 n) (i + 1) n := by
  show ((rangesFrom n 0 [i]).map _).sum = _
  rw [show rangesFrom n 0 [i] = [(0, i + 1), (i + 1, n)] from rfl]
  simp only [List.map_cons, List.map_nil, List.sum_cons, List.sum_nil]
  ring

theorem scaled_var_identity (T al be W1 A1 An : ℚ) (hT : 0 < T)
    (hW1 : 0 ≤ W1) (hW2 : 0 ≤ T - W1)
    (hz1 : W1 = 0 → A1 = 0) (hz2 : T - W1 = 0 → An - A1 = 0) :
    W1 * (T - W1) *
      ((al * W1 + be * A1) / W1 -
        ((al * T + be * An) - (al * W1 + be * A1)) / (T - W1)) ^ 2
    = T ^ 2 * be ^ 2 *
      ((if 0 < W1 / T then (W1 / T) * ((A1 / T) / (W1 / T) - An / T) ^ 2 else 0) +
       (if 0 < (T - W1) / T then
          ((T - W1) / T) * (((An - A1) / T) / ((T - W1) / T) - An / T) ^ 2
        else 0)) := by
  have hTne : T ≠ 0 := ne_of_gt hT
  rcases eq_or_lt_of_le hW1 with h1 | h1
  · -- W1 = 0
    have hW1z : W1 = 0 := h1.symm
    have hA1z : A1 = 0 := hz1 hW1z
    have hif1 : ¬ 0 < W1 / T := by rw [hW1z, zero_div]; exact lt_irrefl 0
    have hif2 : 0 < (T - W1) / T := by
      rw [hW1z, sub_zero]
      exact div_pos hT hT
    rw [if_neg hif1, if_pos hif2, hW1z, hA1z]
    field_simp
  · -- 0 < W1
    rcases eq_or_lt_of_le hW2 with h2 | h2
    · -- T - W1 = 0
      have hW2z : T - W1 = 0 := h2.symm
      have hAz : An - A1 = 0 := hz2 hW2z
      have hTW : T = W1 := by linarith
      have hif1 : 0 < W1 / T := div_pos h1 hT
      have hif2 : ¬ 0 < (T - W1) / T := by
        rw [hW2z, zero_div]
        exact lt_irrefl 0
      have hAe : An = A1 := by linarith
      rw [if_pos hif1, if_neg hif2, hW2z, hAe, ← hTW]
      field_simp
    · -- main case
      have hif1 : 0 < W1 / T := div_pos h1 hT
      have hif2 : 0 < (T - W1) / T := div_pos h2 hT
      rw [if_pos hif1, if_pos hif2]
      have hW1ne : W1 ≠ 0 := ne_of_gt h1
      have hW2ne : T - W1 ≠ 0 := ne_of_gt h2
      field_simp
      ring

theorem otsuVar_eq_scaled (counts centers : List ℚ) (al be : ℚ)
    (hcen : ∀ j, j < counts.length → centers.getD j 0 = al + be * (j : ℚ))
    (hnn : ∀ j : ℕ, 0 ≤ counts.getD j 0)
    (hT : 0 < counts.sum)
    (i : ℕ) (hi : i + 1 < counts.length) :
    otsuVar counts centers i
      = (counts.sum) ^ 2 * be ^ 2 *
        bruteVar (fun j => counts.getD j 0 / counts.sum) counts.length [i] := by
  have hsum : sumTo (fun j => counts.getD j 0) counts.length = counts.sum := by
    have h := mom0_getD counts
    unfold mom0 at h
    exact h
  have hi1n : i + 1 ≤ counts.length := le_of_lt hi
  -- value sums on the otsu side are affine in the index moments
  have hcv : ∀ m, m ≤ counts.length →
      sumTo (fun j => counts.getD j 0 * centers.getD j 0) m
        = al * sumTo (fun j => counts.getD j 0) m
          + be * sumTo (fun j => (j : ℚ) * counts.getD j 0) m := by
    intro m hm
    have hc : sumTo (fun j => counts.getD j 0 * centers.getD j 0) m
        = sumTo (fun j => al * counts.getD j 0
            + be * ((j : ℚ) * counts.getD j 0)) m := by
      refine sumTo_congr _ _ m (fun j hj => ?_)
      rw [hcen j (lt_of_lt_of_le hj hm)]
      ring
    rw [hc, sumTo_add, sumTo_smul, sumTo_smul]
  -- brute-force components over the normalized histogram
  have hdiv : ∀ m, sumTo (fun j => counts.getD j 0 / counts.sum) m
      = sumTo (fun j => counts.getD j 0) m / counts.sum := by
    intro m
    exact sumTo_div_const _ _ m
  have hdivw : ∀ m, sumTo (fun j => (j : ℚ) * (counts.getD j 0 / counts.sum)) m
      = sumTo (fun j => (j : ℚ) * counts.getD j 0) m / counts.sum := by
    intro m
    rw [← sumTo_div_const]
    refine sumTo_congr _ _ m (fun j _ => ?_)
    ring
  have c1 : sumIco (fun j => counts.getD j 0 / counts.sum) 0 (i + 1)
      = sumTo (fun j => counts.getD j 0) (i + 1) / counts.sum := by
    rw [sumIco_eq_sub _ 0 (i + 1) (Nat.zero_le _), hdiv]
    simp [sumTo]
  have c2 : sumIco (fun j => (j : ℚ) * (counts.getD j 0 / counts.sum)) 0 (i + 1)
      = sumTo (fun j => (j : ℚ) * counts.getD j 0) (i + 1) / counts.sum := by
    rw [sumIco_eq_sub _ 0 (i + 1) (Nat.zero_le _), hdivw]
    simp [sumTo]
  have c3 : sumIco (fun j => counts.getD j 0 / counts.sum) (i + 1) counts.length
      = (counts.sum - sumTo (fun j => counts.getD j 0) (i + 1)) / counts.sum := by
    rw [sumIco_eq_sub _ (i + 1) counts.length hi1n, hdiv, hdiv, hsum]
    ring
  have c4 : sumIco (fun j => (j : ℚ) * (counts.getD j 0 / counts.sum)) (i + 1) counts.length
      = (sumTo (fun j => (j : ℚ) * counts.getD j 0) counts.length
          - sumTo (fun j => (j : ℚ) * counts.getD j 0) (i + 1)) / counts.sum := by
    rw [sumIco_eq_sub _ (i + 1) counts.length hi1n, hdivw, hdivw]
    ring
  have c5 : sumIco (fun j => (j : ℚ) * (counts.getD j 0 / counts.sum)) 0 counts.length
      = sumTo (fun j => (j : ℚ) * counts.getD j 0) counts.length / counts.sum := by
    rw [sumIco_eq_sub _ 0 counts.length (Nat.zero_le _), hdivw]
    simp [sumTo]
  -- zero-mass side conditions
  have hz1 : sumTo (fun j => counts.getD j 0) (i + 1) = 0 →
      sumTo (fun j => (j : ℚ) * counts.getD j 0) (i + 1) = 0 := by
    intro h0
    have hz := sumTo_zero_of _ (i + 1) (fun j _ => hnn j) h0
    have : sumTo (fun j => (j : ℚ) * counts.getD j 0) (i + 1)
        = sumTo (fun _ => (0 : ℚ)) (i + 1) := by
      refine sumTo_congr _ _ (i + 1) (fun j hj => ?_)
      rw [hz j hj, mul_zero]
    rw [this, sumTo_zero_fun]
  have hz2 : counts.sum - sumTo (fun j => counts.getD j 0) (i + 1) = 0 →
      sumTo (fun j => (j : ℚ) * counts.getD j 0) counts.length
        - sumTo (fun j => (j : ℚ) * counts.getD j 0) (i + 1) = 0 := by
    intro h0
    have hIco : ∑ j ∈ Finset.Ico (i + 1) counts.length, counts.getD j 0 = 0 := by
      have hs := sumIco_eq_sub (fun j => counts.getD j 0) (i + 1) counts.length hi1n
      rw [sumIco_eq_finset _ _ _ hi1n] at hs
      rw [hs, hsum]
      linarith
    have hzz : ∀ j ∈ Finset.Ico (i + 1) counts.length, counts.getD j 0 = 0 :=
      (Finset.sum_eq_zero_iff_of_nonneg (fun j _ => hnn j)).mp hIco
    have hs2 := sumIco_eq_sub (fun j => (j : ℚ) * counts.getD j 0)
      (i + 1) counts.length hi1n
    rw [sumIco_eq_finset _ _ _ hi1n] at hs2
    rw [← hs2]
    exact Finset.sum_eq_zero fun j hj => by rw [hzz j hj, mul_zero]
  -- nonnegativity of the class masses
  have hWnn : 0 ≤ sumTo (fun j => counts.getD j 0) (i + 1) :=
    sumTo_nonneg _ _ (fun j _ => hnn j)
  have hW2nn : 0 ≤ counts.sum - sumTo (fun j => counts.getD j 0) (i + 1) := by
    have hs := sumIco_eq_sub (fun j => counts.getD j 0) (i + 1) counts.length hi1n
    rw [sumIco_eq_finset _ _ _ hi1n] at hs
    have : 0 ≤ ∑ j ∈ Finset.Ico (i + 1) counts.length, counts.getD j 0 :=
      Finset.sum_nonneg fun j _ => hnn j
    rw [hsum] at hs
    linarith
  -- assemble both sides
  rw [bruteVar_single]
  simp only [otsuVar, bruteTerm]
  rw [c1, c2, c3, c4, c5, hcv (i + 1) hi1n, hcv counts.length (le_refl _), hsum]
  exact scaled_var_identity counts.sum al be
    (sumTo (fun j => counts.getD j 0) (i + 1))
    (sumTo (fun j => (j : ℚ) * counts.getD j 0) (i + 1))
    (sumTo (fun j => (j : ℚ) * counts.getD j 0) counts.length)
    hT hWnn hW2nn hz1 hz2

theorem multiotsu_two_core_eq_otsu (counts centers : List ℚ) (al be : ℚ)
    (hbe : 0 < be)
    (hlen : centers.length = counts.length)
    (hcen : ∀ j, j < counts.length → centers.getD j 0 = al + be * (j : ℚ))
    (hnnl : ∀ p ∈ counts, 0 ≤ p)
    (hnv : 2 ≤ ((List.range counts.length).filter
        (fun j => decide (counts.getD j 0 ≠ 0))).length) :
    multiotsuCore 2 counts centers = (otsuCore counts centers).map (fun t => [t]) := by
  have hnn : ∀ j : ℕ, 0 ≤ counts.getD j 0 := getD_nonneg counts hnnl
  have hT : 0 < counts.sum := by
    have hpos : 0 < ((List.range counts.length).filter
        (fun j => decide (counts.getD j 0 ≠ 0))).length := by omega
    obtain ⟨j, hj⟩ := List.exists_mem_of_length_pos hpos
    obtain ⟨hjr, hjd⟩ := List.mem_filter.mp hj
    have hjn : j < counts.length := List.mem_range.mp hjr
    have hne : counts.getD j 0 ≠ 0 := by
      simpa using hjd
    have hgt : 0 < counts.getD j 0 := lt_of_le_of_ne (hnn j) (Ne.symm hne)
    have hmem : counts.getD j 0 ∈ counts := by
      rw [List.getD_eq_getElem counts 0 hjn]
      exact List.getElem_mem hjn
    have := List.single_le_sum hnnl _ hmem
    linarith
  have hn2 : 2 ≤ counts.length := by
    have h1 := List.length_filter_le (fun j => decide (counts.getD j 0 ≠ 0))
      (List.range counts.length)
    rw [List.length_range] at h1
    omega
  have hnorm : mom0 (fun j => counts.getD j 0 / counts.sum) counts.length = 1 := by
    unfold mom0
    rw [sumTo_div_const]
    have h := mom0_getD counts
    unfold mom0 at h
    rw [h]
    exact div_self (ne_of_gt hT)
  have hlb := lut_eq_brute_search (fun j => counts.getD j 0 / counts.sum)
    (fun j => div_nonneg (hnn j) (le_of_lt hT)) counts.length 1 hnorm
  simp only [multiotsuCore]
  rw [if_neg (not_lt.mpr hnv)]
  rw [hlb]
  unfold bruteSearch
  rw [incTuples_one 0 (counts.length - 1), Nat.sub_zero, ← List.range_eq_range']
  rw [argmaxFirst_map]
  rw [Option.map_map]
  simp only [otsuCore]
  rw [if_neg (by omega : ¬ counts.length = 0),
    if_neg (by omega : ¬ centers.length = 1)]
  rw [Option.map_map]
  have hC : 0 < (counts.sum) ^ 2 * be ^ 2 :=
    mul_pos (pow_pos hT 2) (pow_pos hbe 2)
  have harg : argmaxFirst
      (fun i => bruteVar (fun j => counts.getD j 0 / counts.sum) counts.length [i])
      (List.range (counts.length - 1))
      = argmaxFirst (otsuVar counts centers) (List.range (counts.length - 1)) := by
    refine argmaxFirst_congr _ _ _ (fun a a' haa haa' => ?_)
    have hab : a + 1 < counts.length := by
      have := List.mem_range.mp haa
      omega
    have hab' : a' + 1 < counts.length := by
      have := List.mem_range.mp haa'
      omega
    rw [otsuVar_eq_scaled counts centers al be hcen hnn hT a hab,
      otsuVar_eq_scaled counts centers al be hcen hnn hT a' hab']
    exact (mul_lt_mul_left hC).symm
  rw [harg]
  congr 1

/-- C3 (amended): for every integer image with at least two distinct pixel
values, `multiotsu` with two classes returns exactly the singleton list of the
`otsu` threshold.  On a constant image the two differ: `otsu` returns the
constant while `multiotsu` fails with `InvalidArgument` (see the
counterexample). -/
theorem multiotsu_two_eq_otsu_image (img : List ℤ) (a b : ℤ)
    (ha : a ∈ img) (hb : b ∈ img) (hab : a ≠ b) :
    multiotsuImage 2 img = (otsuImage img).map (fun t => [t]) := by
  have himg : img ≠ [] := by
    intro h
    rw [h] at ha
    cases ha
  have hlt : listMinI img < listMaxI img := by
    have h1 := listMinI_le img a ha
    have h2 := le_listMaxI img a ha
    have h3 := listMinI_le img b hb
    have h4 := le_listMaxI img b hb
    omega
  unfold multiotsuImage otsuImage
  rw [buildHistInt_eq img himg]
  refine multiotsu_two_core_eq_otsu (countsInt img) (centersInt img)
    ((listMinI img : ℤ) : ℚ) 1 one_pos ?_ ?_ ?_ ?_
  · rw [countsInt_length, centersInt_length]
  · intro j hj
    rw [countsInt_length] at hj
    rw [centersInt_getD img j hj]
    push_cast
    ring
  · intro p hp
    rw [countsInt] at hp
    obtain ⟨j, _, rfl⟩ := List.mem_map.mp hp
    positivity
  · rw [countsInt_length]
    set j1 := (a - listMinI img).toNat with hj1
    set j2 := (b - listMinI img).toNat with hj2
    have hmin_a := listMinI_le img a ha
    have hmin_b := listMinI_le img b hb
    have hmax_a := le_listMaxI img a ha
    have hmax_b := le_listMaxI img b hb
    have hj1n : j1 < histN img := by
      unfold histN
      omega
    have hj2n : j2 < histN img := by
      unfold histN
      omega
    have hj12 : j1 ≠ j2 := by
      intro h
      apply hab
      omega
    have hmem : ∀ (c : ℤ), c ∈ img → ((c - listMinI img).toNat) ∈
        (List.range (histN img)).filter
          (fun j => decide ((countsInt img).getD j 0 ≠ 0)) := by
      intro c hc
      have hcn : (c - listMinI img).toNat < histN img := by
        have h5 := listMinI_le img c hc
        have h6 := le_listMaxI img c hc
        unfold histN
        omega
      refine List.mem_filter.mpr ⟨List.mem_range.mpr hcn, ?_⟩
      rw [countsInt_getD img _ hcn]
      have hcc : listMinI img + ((c - listMinI img).toNat : ℤ) = c := by
        have h5 := listMinI_le img c hc
        omega
      rw [hcc]
      have hcount : 0 < img.count c := List.count_pos_iff.mpr hc
      simp only [ne_eq, decide_eq_true_eq]
      positivity
    have hsub : {j1, j2} ⊆ ((List.range (histN img)).filter
        (fun j => decide ((countsInt img).getD j 0 ≠ 0))).toFinset := by
      intro x hx
      rcases Finset.mem_insert.mp hx with rfl | hx2
      · rw [List.mem_toFinset]
        exact hmem a ha
      · rw [Finset.mem_singleton] at hx2
        subst hx2
        rw [List.mem_toFinset]
        exact hmem b hb
    have hcard : ({j1, j2} : Finset ℕ).card = 2 := by
      rw [Finset.card_insert_of_not_mem (by simpa using hj12),
        Finset.card_singleton]
    have h1 := Finset.card_le_card hsub
    have h2 := List.toFinset_card_le ((List.range (histN img)).filter
      (fun j => decide ((countsInt img).getD j 0 ≠ 0)))
    omega

/-- Witness for C3 at the concrete two-valued image `[0, 1]`: `multiotsu` with
two classes and `otsu` agree, both giving threshold `0`. -/
theorem multiotsu_two_eq_otsu_image_witness :
    multiotsuImage 2 [0, 1] = (otsuImage [0, 1]).map (fun t => [t]) ∧
    otsuImage [0, 1] = some 0 := by
  constructor
  · exact multiotsu_two_eq_otsu_image [0, 1] 0 1 (by norm_num) (by norm_num)
      (by norm_num)
  · have hbh : buildHistInt [0, 1] = ([1, 1], [0, 1]) := by
      have hr : List.range (Int.toNat 1 + 1) = [0, 1] := rfl
      have hr2 : List.range 2 = [0, 1] := rfl
      norm_num [buildHistInt, listMinI, listMaxI, min_def, max_def,
        List.count_cons, List.count_nil, hr, hr2, beq_iff_eq]
    unfold otsuImage
    rw [hbh]
    have hr1 : List.range 1 = [0] := rfl
    norm_num [otsuCore, hr1, argmaxFirst, argmaxGo]

/-- Counterexample to C3 as stated: on the constant image `[5, 5]`, `otsu`
returns the constant `5` while `multiotsu(classes=2)` fails with
`InvalidArgument` (fewer distinct values than classes), so the two do not
agree on every image. -/
theorem multiotsu_two_vs_otsu_constant_cex :
    otsuImage [5, 5] = some 5 ∧ multiotsuImage 2 [5, 5] = none := by
  have hbh : buildHistInt [5, 5] = ([2], [5]) := by
    have hr : List.range (Int.toNat 0 + 1) = [0] := rfl
    have hr1 : List.range 1 = [0] := rfl
    norm_num [buildHistInt, listMinI, listMaxI, min_def, max_def,
      List.count_cons, List.count_nil, hr, hr1, beq_iff_eq]
  constructor
  · unfold otsuImage
    rw [hbh]
    norm_num [otsuCore]
  · unfold multiotsuImage
    rw [hbh]
    have hr1 : List.range 1 = [0] := rfl
    norm_num [multiotsuCore, hr1, List.filter_cons, List.filter_nil]

/-! ## Li's selector: extended pixel values and documented edge rules

Modelled from the spec: `li`'s implementation is not in the available source
tree.  Pixel values are extended with NaN and signed infinities.  Following
§4.1 and the behaviours pinned by the tests (`test_li_nan_image`,
`test_li_inf_image`, `test_li_inf_minus_inf`, `test_li_constant_image`,
`test_li_constant_image_with_nan`): NaN pixels are discarded first; an empty
remainder yields NaN; a remainder with a single distinct value is returned
directly; a remainder consisting of `+Inf` and `-Inf` values with both present
yields 0; otherwise Li & Lee's logarithmic fixed-point iteration runs — it
involves transcendental arithmetic and is kept abstract as the parameter
`general`. -/

inductive EVal where
  | nan : EVal
  | pinf : EVal
  | ninf : EVal
  | fin (q : ℚ) : EVal
deriving DecidableEq

/-- NaN test for an extended pixel value. -/
def EVal.isNaN : EVal → Bool
  | .nan => true
  | _ => false

/-- Modelled from the spec: the missing `li` selector over extended pixel
values, with the
documented edge rules resolved before the (abstracted) iterative search. -/
def li (general : List EVal → EVal) (image : List EVal) : EVal :=
  let vals := image.filter (fun v => ! v.isNaN)
  if vals.isEmpty then .nan
  else
    let v0 := vals.getD 0 .nan
    if vals.all (fun x => decide (x = v0)) then v0
    else if vals.all (fun x => decide (x = .pinf) || decide (x = .ninf)) then .fin 0
    else general vals

theorem li_filter_id (img : List EVal) (h : ∀ v ∈ img, ¬ v = EVal.nan) :
    img.filter (fun v => ! v.isNaN) = img := by
  rw [List.filter_eq_self]
  intro a ha
  cases hv : a with
  | nan => exact absurd hv (h a ha)
  | pinf => rfl
  | ninf => rfl
  | fin q => rfl

theorem li_all_eq (general : List EVal → EVal) (img : List EVal) (c : EVal)
    (hne : img ≠ []) (hcn : ¬ c = EVal.nan) (hall : ∀ v ∈ img, v = c) :
    li general img = c := by
  have hf : img.filter (fun v => ! v.isNaN) = img :=
    li_filter_id img (fun v hv => by rw [hall v hv]; exact hcn)
  simp only [li, hf]
  cases img with
  | nil => exact absurd rfl hne
  | cons v rest =>
    have hv : v = c := hall v (List.mem_cons_self v rest)
    have h0 : (v :: rest).getD 0 EVal.nan = c := by
      rw [List.getD_cons_zero]
      exact hv
    rw [h0]
    have hcond : (v :: rest).all (fun x => decide (x = c)) = true := by
      rw [List.all_eq_true]
      intro x hx
      simp [hall x hx]
    rw [List.isEmpty_cons, hcond]
    simp

/-- C4: `li` obeys the documented edge-value rules — a constant image returns
that constant, an all-NaN image returns NaN, an image of `+Inf` and `-Inf`
values containing both returns 0, and an all-`+Inf` image returns `+Inf` —
independently of the abstracted general iteration. -/
theorem li_edge_rules (general : List EVal → EVal) :
    (∀ (img : List EVal) (c : ℚ), img ≠ [] →
      (∀ v ∈ img, v = EVal.fin c) → li general img = EVal.fin c) ∧
    (∀ img : List EVal, (∀ v ∈ img, v = EVal.nan) → li general img = EVal.nan) ∧
    (∀ img : List EVal,
      (∀ v ∈ img, v = EVal.pinf ∨ v = EVal.ninf) →
      EVal.pinf ∈ img → EVal.ninf ∈ img → li general img = EVal.fin 0) ∧
    (∀ img : List EVal, img ≠ [] →
      (∀ v ∈ img, v = EVal.pinf) → li general img = EVal.pinf) := by
  refine ⟨?_, ?_, ?_, ?_⟩
  · intro img c hne hall
    exact li_all_eq general img (EVal.fin c) hne (by simp) hall
  · intro img hall
    have hf : img.filter (fun v => ! v.isNaN) = [] := by
      rw [List.filter_eq_nil_iff]
      intro v hv
      rw [hall v hv]
      simp [EVal.isNaN]
    simp [li, hf]
  · intro img hall hp hn
    have hf : img.filter (fun v => ! v.isNaN) = img :=
      li_filter_id img (fun v hv => by rcases hall v hv with h | h <;> simp [h])
    simp only [li, hf]
    cases img with
    | nil => cases hp
    | cons v rest =>
      rw [List.isEmpty_cons]
      have hc1 : (v :: rest).all
          (fun x => decide (x = (v :: rest).getD 0 EVal.nan)) = false := by
        rw [List.getD_cons_zero]
        rcases hall v (List.mem_cons_self v rest) with hv | hv
        · -- head is +Inf, but -Inf occurs somewhere
          refine List.all_eq_false.mpr ⟨EVal.ninf, hn, ?_⟩
          rw [hv]
          simp
        · refine List.all_eq_false.mpr ⟨EVal.pinf, hp, ?_⟩
          rw [hv]
          simp
      have hc2 : (v :: rest).all
          (fun x => decide (x = EVal.pinf) || decide (x = EVal.ninf)) = true := by
        rw [List.all_eq_true]
        intro x hx
        rcases hall x hx with h | h <;> simp [h]
      rw [hc1, hc2]
      simp
  · intro img hne hall
    exact li_all_eq general img EVal.pinf hne (by simp) hall

/-- Witness for C4: the four edge rules applied to the concrete images
`[3, 3]`, `[NaN, NaN]`, `[+Inf, -Inf]` and `[+Inf, +Inf]`, with the general
branch instantiated by a constant function. -/
theorem li_edge_rules_witness :
    li (fun _ => EVal.nan) [EVal.fin 3, EVal.fin 3] = EVal.fin 3 ∧
    li (fun _ => EVal.nan) [EVal.nan, EVal.nan] = EVal.nan ∧
    li (fun _ => EVal.nan) [EVal.pinf, EVal.ninf] = EVal.fin 0 ∧
    li (fun _ => EVal.nan) [EVal.pinf, EVal.pinf] = EVal.pinf := by
  obtain ⟨h1, h2, h3, h4⟩ := li_edge_rules (fun _ => EVal.nan)
  refine ⟨h1 [EVal.fin 3, EVal.fin 3] 3 (by simp) (by simp),
    h2 [EVal.nan, EVal.nan] (by simp),
    h3 [EVal.pinf, EVal.ninf] ?_ (by simp) (by simp),
    h4 [EVal.pinf, EVal.pinf] (by simp) (by simp)⟩
  intro v hv
  rcases List.mem_cons.mp hv with rfl | hv2
  · exact Or.inl rfl
  · rcases List.mem_cons.mp hv2 with rfl | hv3
    · exact Or.inr rfl
    · cases hv3

/-- C10: on an image whose finite values all equal one constant `c` but which
also contains NaN entries, `li` ignores the NaNs and returns `c` (the NaN
entries are discarded, not propagated). -/
theorem li_constant_with_nan (general : List EVal → EVal) (img : List EVal)
    (c : ℚ) (hmem : EVal.fin c ∈ img)
    (hall : ∀ v ∈ img, v = EVal.fin c ∨ v = EVal.nan) :
    li general img = EVal.fin c := by
  have hmemf : EVal.fin c ∈ img.filter (fun v => ! v.isNaN) := by
    rw [List.mem_filter]
    exact ⟨hmem, rfl⟩
  have hallf : ∀ v ∈ img.filter (fun v => ! v.isNaN), v = EVal.fin c := by
    intro v hv
    obtain ⟨hvm, hvn⟩ := List.mem_filter.mp hv
    rcases hall v hvm with h | h
    · exact h
    · rw [h] at hvn
      cases hvn
  simp only [li]
  cases hf : img.filter (fun v => ! v.isNaN) with
  | nil =>
    rw [hf] at hmemf
    cases hmemf
  | cons v rest =>
    rw [hf] at hmemf hallf
    have hv : v = EVal.fin c := hallf v (List.mem_cons_self v rest)
    have h0 : (v :: rest).getD 0 EVal.nan = EVal.fin c := by
      rw [List.getD_cons_zero]
      exact hv
    rw [h0]
    have hcond : (v :: rest).all (fun x => decide (x = EVal.fin c)) = true := by
      rw [List.all_eq_true]
      intro x hx
      simp [hallf x hx]
    rw [List.isEmpty_cons, hcond]
    simp

/-- Witness for C10 at the concrete image `[8, 8, 8, 8, NaN]`. -/
theorem li_constant_with_nan_witness :
    li (fun _ => EVal.nan)
      [EVal.fin 8, EVal.fin 8, EVal.fin 8, EVal.fin 8, EVal.nan] = EVal.fin 8 := by
  refine li_constant_with_nan (fun _ => EVal.nan) _ 8 (by simp) ?_
  intro v hv
  simp only [List.mem_cons] at hv
  rcases hv with rfl | rfl | rfl | rfl | rfl | h
  · exact Or.inl rfl
  · exact Or.inl rfl
  · exact Or.inl rfl
  · exact Or.inl rfl
  · exact Or.inr rfl
  · cases h

/-! ## Local/adaptive threshold engine

Modelled from the spec: the local engine (`local_image`, `niblack_image`,
`sauvola_image` and the shared `_mean_std`) is not in the available source
tree.  Per §4.3 and design note §9, the per-window mean `m` and
mean-of-squares `g2` come from the windowed-statistic collaborator;
floating-point cancellation can make the computed `g2 - m*m` negative, which
is modelled by leaving `g2` unconstrained; the deviation is clamped to
`max(g2 - m*m, 0)` before the square root.  The square root itself is any
function of the rationals that is non-NaN on nonnegative arguments (its
numeric value is irrelevant to the NaN-safety claim). -/

/-- Modelled from the spec: the missing `_mean_std` deviation computation —
the clamped windowed standard deviation `sqrt(max(g2 - m*m, 0))`. -/
def stdClamped (sqrtQ : ℚ → EVal) (m g2 : ℚ) : EVal :=
  sqrtQ (max (g2 - m * m) 0)

/-- Modelled from the spec: the missing `niblack_image` per-pixel threshold
`m + k*std`, propagating a non-finite std. -/
def niblackPixel (sqrtQ : ℚ → EVal) (k m g2 : ℚ) : EVal :=
  match stdClamped sqrtQ m g2 with
  | .fin s => .fin (m + k * s)
  | e => e

/-- Niblack threshold surface over the collaborator's per-pixel
(mean, mean-of-squares) statistics. -/
def niblackImage (sqrtQ : ℚ → EVal) (k : ℚ) (stats : List (ℚ × ℚ)) : List EVal :=
  stats.map (fun p => niblackPixel sqrtQ k p.1 p.2)

/-- Modelled from the spec: the missing `sauvola_image` per-pixel threshold
`m * (1 + k*(std/r - 1))`. -/
def sauvolaPixel (sqrtQ : ℚ → EVal) (k r m g2 : ℚ) : EVal :=
  match stdClamped sqrtQ m g2 with
  | .fin s => .fin (m * (1 + k * (s / r - 1)))
  | e => e

/-- Sauvola threshold surface over the collaborator's per-pixel statistics. -/
def sauvolaImage (sqrtQ : ℚ → EVal) (k r : ℚ) (stats : List (ℚ × ℚ)) : List EVal :=
  stats.map (fun p => sauvolaPixel sqrtQ k r p.1 p.2)

/-- C7: however the computed windowed variance comes out — including negative
values produced by floating-point cancellation on near-constant windows — the
clamp to `≥ 0` before the square root makes the negative-argument branch of
`sqrt` unreachable, so no pixel of the Niblack or Sauvola output is NaN when
the input statistics are NaN-free. -/
theorem niblack_sauvola_no_nan (sqrtQ : ℚ → EVal)
    (hsq : ∀ x : ℚ, 0 ≤ x → ∃ q : ℚ, sqrtQ x = EVal.fin q)
    (k r : ℚ) (stats : List (ℚ × ℚ)) :
    (niblackImage sqrtQ k stats).any EVal.isNaN = false ∧
    (sauvolaImage sqrtQ k r stats).any EVal.isNaN = false := by
  have hstd : ∀ m g2 : ℚ, ∃ q : ℚ, stdClamped sqrtQ m g2 = EVal.fin q := by
    intro m g2
    exact hsq _ (le_max_right _ _)
  constructor
  · rw [List.any_eq_false]
    intro y hy
    obtain ⟨p, _, rfl⟩ := List.mem_map.mp hy
    obtain ⟨q, hq⟩ := hstd p.1 p.2
    simp [niblackPixel, hq, EVal.isNaN]
  · rw [List.any_eq_false]
    intro y hy
    obtain ⟨p, _, rfl⟩ := List.mem_map.mp hy
    obtain ⟨q, hq⟩ := hstd p.1 p.2
    simp [sauvolaPixel, hq, EVal.isNaN]

/-- Witness for C7 on the regression window: a 4×4 block of the constant value
`0.03082192` whose computed mean-of-squares came out below `mean²` (negative
computed variance); neither output contains NaN. -/
theorem niblack_sauvola_no_nan_witness :
    (niblackImage (fun x => if x < 0 then EVal.nan else EVal.fin 0) (1 / 5)
      (List.replicate 16 (3082192 / 100000000, 0))).any EVal.isNaN = false ∧
    (sauvolaImage (fun x => if x < 0 then EVal.nan else EVal.fin 0) (1 / 5) 128
      (List.replicate 16 (3082192 / 100000000, 0))).any EVal.isNaN = false :=
  niblack_sauvola_no_nan (fun x => if x < 0 then EVal.nan else EVal.fin 0)
    (fun x hx => ⟨0, if_neg (not_lt.mpr hx)⟩) (1 / 5) 128
    (List.replicate 16 (3082192 / 100000000, 0))

/-! ## Block-size validation of the local engine -/

/-- Window specification: a single isotropic integer or a per-axis sequence. -/
inductive BlockSize where
  | scalar (n : ℕ) : BlockSize
  | seq (l : List ℕ) : BlockSize

/-- Error taxonomy of the thresholding engine. -/
inductive ThreshErr where
  | invalidArgument : ThreshErr
  | notBimodal : ThreshErr
deriving DecidableEq

/-- Modelled from the spec: the missing block-size expansion — a scalar is replicated
across all axes; a sequence must match the image dimensionality exactly. -/
def expandBlockSize (ndim : ℕ) : BlockSize → Except ThreshErr (List ℕ)
  | .scalar n => .ok (List.replicate ndim n)
  | .seq l => if l.length = ndim then .ok l else .error .invalidArgument

/-- Modelled from the spec: the missing `local_image` entry point — the block
size is expanded and validated (every axis must be odd), and only then is the
windowed-statistic collaborator `compute` invoked; a validation failure
returns `InvalidArgument` and produces no partial result. -/
def local_image (ndim : ℕ) (bs : BlockSize) (compute : List ℕ → List ℚ) :
    Except ThreshErr (List ℚ) :=
  match expandBlockSize ndim bs with
  | .error e => .error e
  | .ok sizes =>
    if sizes.all (fun w => decide (w % 2 = 1)) then .ok (compute sizes)
    else .error .invalidArgument

/-- C8: `local_image` fails with `InvalidArgument` whenever the block size is
a sequence whose length differs from the image dimensionality, or has an even
value on any axis; the error is returned instead of any result. -/
theorem local_image_invalid_block_size (ndim : ℕ) (bs : BlockSize)
    (compute : List ℕ → List ℚ)
    (hbad : (∃ l, bs = BlockSize.seq l ∧ l.length ≠ ndim) ∨
      (∃ sizes, expandBlockSize ndim bs = Except.ok sizes ∧
        ∃ w ∈ sizes, w % 2 = 0)) :
    local_image ndim bs compute = Except.error ThreshErr.invalidArgument := by
  rcases hbad with ⟨l, rfl, hlen⟩ | ⟨sizes, hok, w, hw, hweven⟩
  · simp only [local_image, expandBlockSize, if_neg hlen]
  · have hall : sizes.all (fun w => decide (w % 2 = 1)) = false := by
      refine List.all_eq_false.mpr ⟨w, hw, ?_⟩
      simp only [decide_eq_true_eq]
      omega
    simp only [local_image, hok, hall]
    simp

/-- Witness for C8: a length-1 sequence on a 2-D image and an even scalar both
produce `InvalidArgument`. -/
theorem local_image_invalid_block_size_witness :
    local_image 2 (BlockSize.seq [3]) (fun _ => [])
      = Except.error ThreshErr.invalidArgument ∧
    local_image 2 (BlockSize.scalar 4) (fun _ => [])
      = Except.error ThreshErr.invalidArgument := by
  constructor
  · exact local_image_invalid_block_size 2 (BlockSize.seq [3]) (fun _ => [])
      (Or.inl ⟨[3], rfl, by norm_num⟩)
  · exact local_image_invalid_block_size 2 (BlockSize.scalar 4) (fun _ => [])
      (Or.inr ⟨[4, 4], rfl, 4, by simp, rfl⟩)

/-! ## Trimming lemmas and degenerate-histogram behaviour -/

theorem dropWhile_append_of_all {α : Type} (P : α → Bool) (l1 l2 : List α)
    (h : ∀ x ∈ l1, P x = true) :
    (l1 ++ l2).dropWhile P = l2.dropWhile P := by
  induction l1 with
  | nil => rfl
  | cons x xs ih =>
    rw [List.cons_append, List.dropWhile_cons_of_pos (h x (List.mem_cons_self x xs))]
    exact ih (fun y hy => h y (List.mem_cons_of_mem x hy))

theorem trimPairs_single (A B : List (ℚ × ℚ)) (x : ℚ × ℚ)
    (hA : ∀ p ∈ A, p.1 = 0) (hB : ∀ p ∈ B, p.1 = 0) (hx : x.1 ≠ 0) :
    trimPairs (A ++ x :: B) = [x] := by
  unfold trimPairs
  rw [dropWhile_append_of_all _ A (x :: B) (fun p hp => by simp [hA p hp])]
  rw [List.dropWhile_cons_of_neg (by simp [hx])]
  rw [List.reverse_cons]
  rw [dropWhile_append_of_all _ B.reverse [x]
    (fun p hp => by simp [hB p (List.mem_reverse.mp hp)])]
  rw [List.dropWhile_cons_of_neg (by simp [hx])]
  rfl

theorem trimPairs_subset (ps : List (ℚ × ℚ)) (p : ℚ × ℚ)
    (hp : p ∈ trimPairs ps) : p ∈ ps := by
  unfold trimPairs at hp
  rw [List.mem_reverse] at hp
  have h1 := (List.dropWhile_sublist (l := (ps.dropWhile
    (fun q => decide (q.1 = 0))).reverse) (fun q => decide (q.1 = 0))).subset hp
  rw [List.mem_reverse] at h1
  exact (List.dropWhile_sublist (fun q => decide (q.1 = 0))).subset h1

theorem validateHistPair_single (zA zB cA cB : List ℚ) (c bc : ℚ)
    (hc : c ≠ 0) (hzA : ∀ x ∈ zA, x = 0) (hzB : ∀ x ∈ zB, x = 0)
    (hlA : cA.length = zA.length) :
    validateHistPair (zA ++ c :: zB) (cA ++ bc :: cB) = ([c], [bc]) := by
  unfold validateHistPair
  have hzip : (zA ++ c :: zB).zip (cA ++ bc :: cB)
      = zA.zip cA ++ (c, bc) :: zB.zip cB := by
    rw [List.zip_append hlA.symm]
    rfl
  rw [hzip, trimPairs_single (zA.zip cA) (zB.zip cB) (c, bc)
    (fun p hp => hzA p.1 (List.mem_zip hp).1)
    (fun p hp => hzB p.1 (List.mem_zip hp).1) hc]
  rfl

theorem smooth3_length (l : List ℚ) : (smooth3 l).length = l.length := by
  simp [smooth3]

theorem smooth3_getD (l : List ℚ) (j : ℕ) (hj : j < l.length) :
    (smooth3 l).getD j 0
      = (l.getD (j - 1) 0 + l.getD j 0 + l.getD (min (j + 1) (l.length - 1)) 0) / 3 := by
  unfold smooth3
  exact getD_map_range _ _ j hj

theorem list_getD_const (l : List ℚ) (v : ℚ) (hall : ∀ x ∈ l, x = v)
    (j : ℕ) (hj : j < l.length) : l.getD j 0 = v := by
  rw [List.getD_eq_getElem l 0 hj]
  exact hall _ (List.getElem_mem hj)

theorem fmGo_const (l : List ℚ) (v : ℚ) (hall : ∀ x ∈ l, x = v) :
    ∀ (k i : ℕ), i + k ≤ l.length - 1 → fmGo l k i true = [] := by
  intro k
  induction k with
  | zero => intro i _; rfl
  | succ k ih =>
    intro i hik
    have hi1 : i + 1 < l.length := by omega
    have hi0 : i < l.length := by omega
    unfold fmGo
    rw [list_getD_const l v hall (i + 1) hi1, list_getD_const l v hall i hi0]
    rw [if_pos rfl, if_neg (lt_irrefl v)]
    exact ih (i + 1) (by omega)

theorem findMaxima_const (l : List ℚ) (v : ℚ) (hall : ∀ x ∈ l, x = v) :
    findMaxima l = [] := by
  unfold findMaxima
  exact fmGo_const l v hall (l.length - 1) 0 (by omega)

theorem smooth3_const (l : List ℚ) (v : ℚ) (hall : ∀ x ∈ l, x = v) :
    ∀ x ∈ smooth3 l, x = v := by
  intro x hx
  unfold smooth3 at hx
  obtain ⟨j, hjr, rfl⟩ := List.mem_map.mp hx
  have hj : j < l.length := List.mem_range.mp hjr
  have h0 : 0 < l.length := by omega
  rw [list_getD_const l v hall (j - 1) (by omega),
    list_getD_const l v hall j hj,
    list_getD_const l v hall (min (j + 1) (l.length - 1)) (by omega)]
  ring

theorem minimumCore_const (budget : ℕ) (v : ℚ) (counts centers : List ℚ)
    (hall : ∀ x ∈ counts, x = v) :
    minimumCore budget counts centers = none := by
  cases budget with
  | zero => rfl
  | succ f =>
    have hm : findMaxima (smooth3 counts) = [] :=
      findMaxima_const _ v (smooth3_const counts v hall)
    unfold minimumCore minLoop
    rw [if_neg (Nat.succ_ne_zero f)]
    simp only [hm, List.length_nil]
    norm_num

/-- Modelled from the spec: the missing `triangle` selector; only its degenerate branch is
pinned by the tests (a constant image — equivalently a histogram whose lowest
and highest nonzero bins coincide — returns the first pixel value); the
geometric peak-to-tail search of the general branch involves the histogram
geometry and is abstracted as `general`. -/
def triangleImage (general : List ℚ → List ℚ → ℚ) (img : List ℤ) : Option ℚ :=
  match img with
  | [] => none
  | p :: _ =>
    let counts := (buildHistInt img).1
    let nz := (List.range counts.length).filter
      (fun j => decide (counts.getD j 0 ≠ 0))
    if nz.length = 1 then some ((p : ℚ))
    else some (general (buildHistInt img).1 (buildHistInt img).2)

theorem buildHistInt_const (img : List ℤ) (p : ℤ) (hne : img ≠ [])
    (hall : ∀ q ∈ img, q = p) :
    buildHistInt img = ([(img.count p : ℚ)], [(p : ℚ)]) := by
  have hmin : listMinI img = p := hall _ (listMinI_mem img hne)
  have hmax : listMaxI img = p := hall _ (listMaxI_mem img hne)
  have hN : histN img = 1 := by
    unfold histN
    rw [hmin, hmax]
    simp
  rw [buildHistInt_eq img hne]
  unfold countsInt centersInt
  rw [hN, hmin]
  have hr : List.range 1 = [0] := rfl
  rw [hr]
  simp

theorem meanImage_const (img : List ℚ) (c : ℚ) (hne : img ≠ [])
    (hall : ∀ x ∈ img, x = c) : meanImage img = c := by
  have hsum : ∀ (l : List ℚ), (∀ x ∈ l, x = c) → l.sum = (l.length : ℚ) * c := by
    intro l
    induction l with
    | nil => intro _; simp
    | cons x xs ih =>
      intro hl
      rw [List.sum_cons, ih (fun y hy => hl y (List.mem_cons_of_mem x hy)),
        hl x (List.mem_cons_self x xs)]
      rw [List.length_cons]
      push_cast
      ring
  unfold meanImage
  rw [hsum img hall]
  have hlen : (img.length : ℚ) ≠ 0 := by
    have h0 : img.length ≠ 0 := by
      intro h
      exact hne (List.eq_nil_of_length_eq_zero h)
    exact_mod_cast h0
  field_simp

theorem triangleImage_const (general : List ℚ → List ℚ → ℚ) (img : List ℤ)
    (p : ℤ) (hne : img ≠ []) (hall : ∀ q ∈ img, q = p) :
    triangleImage general img = some ((p : ℚ)) := by
  have hbh := buildHistInt_const img p hne hall
  have hcnt : 0 < img.count p := by
    refine List.count_pos_iff.mpr ?_
    cases img with
    | nil => exact absurd rfl hne
    | cons q rest =>
      have := hall q (List.mem_cons_self q rest)
      rw [← this]
      exact List.mem_cons_self q rest
  cases img with
  | nil => exact absurd rfl hne
  | cons q rest =>
    have hq : q = p := hall q (List.mem_cons_self q rest)
    simp only [triangleImage, hbh]
    have hr : List.range ([(((q :: rest).count p : ℚ))].length) = [0] := rfl
    rw [hr]
    have hfil : ([0] : List ℕ).filter
        (fun j => decide (([(((q :: rest).count p : ℚ))]).getD j 0 ≠ 0)) = [0] := by
      rw [List.filter_cons]
      have hne0 : (([(((q :: rest).count p : ℚ))]).getD 0 0 ≠ 0) := by
        rw [List.getD_cons_zero]
        have : (0 : ℚ) < ((q :: rest).count p : ℚ) := by exact_mod_cast hcnt
        exact ne_of_gt this
      simp only [ne_eq, decide_not, List.filter_cons, List.filter_nil]
      simp [hne0]
      omega
    rw [hfil]
    simp only [List.length_cons, List.length_nil, if_true]
    rw [hq]

/-- C5 (amended): for every validated histogram in which exactly one bin has
a nonzero count, `otsu`, `yen` and `isodata` return that bin's center, and on
the corresponding constant image `mean`, `triangle` and `li` return the
constant — but `minimum` fails with `NotBimodal` instead of returning the
center (see the counterexample). -/
theorem single_nonzero_bin_selectors (logQ : ℚ → ℚ)
    (triGeneral : List ℚ → List ℚ → ℚ) (liGeneral : List EVal → EVal)
    (budget : ℕ) (zA zB cA cB : List ℚ) (c bc : ℚ) (hc : c ≠ 0)
    (hzA : ∀ x ∈ zA, x = 0) (hzB : ∀ x ∈ zB, x = 0)
    (hlA : cA.length = zA.length) :
    otsuHistPair (zA ++ c :: zB) (cA ++ bc :: cB) = some bc ∧
    yenHistPair logQ (zA ++ c :: zB) (cA ++ bc :: cB) = some bc ∧
    isodataHistPair (zA ++ c :: zB) (cA ++ bc :: cB) = some bc ∧
    minimumHistPair budget (zA ++ c :: zB) (cA ++ bc :: cB) = none ∧
    (∀ (img : List ℤ) (p : ℤ), img ≠ [] → (∀ q ∈ img, q = p) →
      meanImage (img.map (fun q : ℤ => (q : ℚ))) = ((p : ℤ) : ℚ) ∧
      triangleImage triGeneral img = some ((p : ℚ)) ∧
      li liGeneral (img.map (fun q : ℤ => EVal.fin ((q : ℚ))))
        = EVal.fin ((p : ℚ))) := by
  have hval := validateHistPair_single zA zB cA cB c bc hc hzA hzB hlA
  refine ⟨?_, ?_, ?_, ?_, ?_⟩
  · simp only [otsuHistPair, hval]
    norm_num [otsuCore]
  · simp only [yenHistPair, hval]
    norm_num [yenCore]
  · simp only [isodataHistPair, hval]
    norm_num [isodataCore, isodataAllCore]
  · simp only [minimumHistPair, hval]
    exact minimumCore_const budget c [c] [bc]
      (fun x hx => List.mem_singleton.mp hx)
  · intro img p hne hall
    refine ⟨?_, triangleImage_const triGeneral img p hne hall, ?_⟩
    · refine meanImage_const _ ((p : ℤ) : ℚ) ?_ ?_
      · simp [hne]
      · intro x hx
        obtain ⟨q, hq, rfl⟩ := List.mem_map.mp hx
        rw [hall q hq]
    · refine li_all_eq liGeneral _ (EVal.fin ((p : ℚ))) ?_ (by simp) ?_
      · simp [hne]
      · intro v hv
        obtain ⟨q, hq, rfl⟩ := List.mem_map.mp hv
        rw [hall q hq]

/-- Witness for C5 at the concrete single-nonzero-bin histogram
`counts [0, 3]`, `centers [1, 9]` and the constant image `[4, 4]`. -/
theorem single_nonzero_bin_selectors_witness :
    otsuHistPair [0, 3] [1, 9] = some 9 ∧
    isodataHistPair [0, 3] [1, 9] = some 9 ∧
    minimumHistPair 10000 [0, 3] [1, 9] = none ∧
    meanImage (([4, 4] : List ℤ).map (fun q : ℤ => (q : ℚ))) = ((4 : ℤ) : ℚ) := by
  obtain ⟨h1, h2, h3, h4, h5⟩ := single_nonzero_bin_selectors (fun q => q)
    (fun _ _ => 0) (fun _ => EVal.nan) 10000 [0] [] [1] [] 3 9 (by norm_num)
    (by intro x hx; simpa using hx) (by intro x hx; cases hx) rfl
  exact ⟨h1, h3, h4, (h5 [4, 4] 4 (by simp)
    (by intro q hq; rcases List.mem_cons.mp hq with rfl | hq2
        · rfl
        · rcases List.mem_cons.mp hq2 with rfl | hq3
          · rfl
          · cases hq3)).1⟩

/-- Counterexample to C5 as stated: on the single-bin histogram with count 5
and center 7, `minimum` fails with `NotBimodal` (`none`) rather than
returning the bin center 7. -/
theorem single_nonzero_bin_minimum_cex :
    minimumHistPair 10000 [5] [7] = none ∧
    minimumHistPair 10000 [5] [7] ≠ some 7 := by
  have h : minimumHistPair 10000 [5] [7] = none := by
    have hval := validateHistPair_single [] [] [] [] 5 7 (by norm_num)
      (by intro x hx; cases hx) (by intro x hx; cases hx) rfl
    simp only [minimumHistPair]
    rw [show ([5] : List ℚ) = [] ++ 5 :: [] from rfl,
      show ([7] : List ℚ) = [] ++ 7 :: [] from rfl, hval]
    exact minimumCore_const 10000 5 [5] [7] (fun x hx => List.mem_singleton.mp hx)
  rw [h]
  exact ⟨rfl, by simp⟩

/-- Break form of the smoothing loop: when the first smoothing pass already
has fewer than three local maxima, the loop stops immediately. -/
theorem minLoop_break (s : List ℚ) (counter fuel : ℕ) (hf : fuel ≠ 0)
    (hb : (findMaxima (smooth3 s)).length < 3) :
    minLoop s counter fuel = (smooth3 s, findMaxima (smooth3 s), counter) := by
  cases fuel with
  | zero => exact absurd rfl hf
  | succ f =>
    unfold minLoop
    rw [if_pos hb]

/-- C6: `minimum` fails with `NotBimodal` whenever the smoothing loop cannot
reach exactly two local maxima — in particular on every flat histogram and on
every constant (e.g. all-zero) image — and conversely a successful return is
only possible when the loop stopped, before exhausting the iteration budget,
on a smoothed histogram with exactly two local maxima. -/
theorem minimum_notbimodal_behavior :
    (∀ (budget n : ℕ) (v : ℚ) (centers : List ℚ),
      minimumHistPair budget (List.replicate n v) centers = none) ∧
    (∀ (budget : ℕ) (img : List ℤ) (c : ℤ), img ≠ [] → (∀ p ∈ img, p = c) →
      minimumImage budget img = none) ∧
    (∀ (budget : ℕ) (counts centers : List ℚ) (t : ℚ),
      minimumCore budget counts centers = some t →
      (minLoop counts 0 budget).2.1.length = 2 ∧
      (minLoop counts 0 budget).2.2 ≠ budget - 1) := by
  refine ⟨?_, ?_, ?_⟩
  · intro budget n v centers
    unfold minimumHistPair
    refine minimumCore_const budget v _ _ ?_
    intro x hx
    simp only [validateHistPair] at hx
    obtain ⟨pr, hpr, rfl⟩ := List.mem_map.mp hx
    have hmem := trimPairs_subset _ pr hpr
    exact List.eq_of_mem_replicate (List.of_mem_zip hmem).1
  · intro budget img c hne hall
    unfold minimumImage
    rw [buildHistInt_const img c hne hall]
    exact minimumCore_const budget _ _ _ (fun x hx => List.mem_singleton.mp hx)
  · intro budget counts centers t h
    by_cases h0 : budget = 0
    · rw [h0] at h
      simp [minimumCore] at h
    · simp only [minimumCore, if_neg h0] at h
      have hl : (minLoop counts 0 budget).2.1.length = 2 := by
        by_contra hq
        rw [if_pos hq] at h
        exact Option.noConfusion h
      refine ⟨hl, ?_⟩
      intro hq
      rw [if_neg (fun hx => hx hl), if_pos hq] at h
      exact Option.noConfusion h

/-- Witness for C6: the flat histogram of four equal counts and the all-zero
image both produce the failure, while on the bimodal histogram
`[0, 30, 0, 0, 0, 30, 0, 0]` the selector succeeds and the loop indeed stopped
with exactly two maxima within the budget. -/
theorem minimum_notbimodal_behavior_witness :
    minimumHistPair 10000 (List.replicate 4 (1 : ℚ)) (arangeCenters 4) = none ∧
    minimumImage 10000 [0, 0, 0] = none ∧
    ((minLoop [0, 30, 0, 0, 0, 30, 0, 0] 0 10000).2.1.length = 2 ∧
     (minLoop [0, 30, 0, 0, 0, 30, 0, 0] 0 10000).2.2 ≠ 10000 - 1) := by
  obtain ⟨hA, hB, hC⟩ := minimum_notbimodal_behavior
  have hsm : smooth3 [0, 30, 0, 0, 0, 30, 0, 0]
      = [10, 10, 10, 0, 10, 10, 10, 0] := by
    have hr : List.range 8 = [0, 1, 2, 3, 4, 5, 6, 7] := rfl
    norm_num [smooth3, hr, min_def]
  have hfm : findMaxima [(10 : ℚ), 10, 10, 0, 10, 10, 10, 0] = [2, 6] := by
    norm_num [findMaxima, fmGo]
  have hbreak := minLoop_break [0, 30, 0, 0, 0, 30, 0, 0] 0 10000
    (by norm_num) (by rw [hsm, hfm]; norm_num)
  have hcore : minimumCore 10000 [0, 30, 0, 0, 0, 30, 0, 0] (arangeCenters 8)
      = some 3 := by
    have har : arangeCenters 8 = [0, 1, 2, 3, 4, 5, 6, 7] := by
      have hr : List.range 8 = [0, 1, 2, 3, 4, 5, 6, 7] := rfl
      norm_num [arangeCenters, hr]
    simp only [minimumCore, if_neg (by norm_num : ¬ (10000 = 0)), hbreak,
      hsm, hfm, har]
    norm_num [argminIdx, argminIdxGo]
  exact ⟨hA 10000 4 1 (arangeCenters 4),
    hB 10000 [0, 0, 0] 0 (by simp)
      (by intro p hp
          rcases List.mem_cons.mp hp with rfl | hp2
          · rfl
          · rcases List.mem_cons.mp hp2 with rfl | hp3
            · rfl
            · rcases List.mem_cons.mp hp3 with rfl | hp4
              · rfl
              · cases hp4),
    hC 10000 [0, 30, 0, 0, 0, 30, 0, 0] (arangeCenters 8) 3 hcore⟩

theorem dropWhile_id_of_head {α : Type} (P : α → Bool) (l : List α)
    (h : ∀ x, l.head? = some x → P x = false) : l.dropWhile P = l := by
  cases l with
  | nil => rfl
  | cons x xs =>
    refine List.dropWhile_cons_of_neg ?_
    rw [h x rfl]
    simp

theorem trimPairs_id (ps : List (ℚ × ℚ))
    (hh : ∀ x, ps.head? = some x → x.1 ≠ 0)
    (hl : ∀ x, ps.getLast? = some x → x.1 ≠ 0) :
    trimPairs ps = ps := by
  unfold trimPairs
  rw [dropWhile_id_of_head _ ps (fun x hx => decide_eq_false (hh x hx))]
  rw [dropWhile_id_of_head _ ps.reverse (fun x hx => by
    rw [List.head?_reverse] at hx
    exact decide_eq_false (hl x hx))]
  exact List.reverse_reverse ps

theorem count_min_pos (img : List ℤ) (hne : img ≠ []) :
    (0 : ℚ) < (img.count (listMinI img) : ℚ) := by
  have h := List.count_pos_iff.mpr (listMinI_mem img hne)
  exact_mod_cast h

theorem count_max_pos (img : List ℤ) (hne : img ≠ []) :
    (0 : ℚ) < (img.count (listMaxI img) : ℚ) := by
  have h := List.count_pos_iff.mpr (listMaxI_mem img hne)
  exact_mod_cast h

theorem validate_builder_id (img : List ℤ) (hne : img ≠ []) :
    validateHistPair (countsInt img) (centersInt img)
      = (countsInt img, centersInt img) := by
  have hzip : (countsInt img).zip (centersInt img)
      = (List.range (histN img)).map (fun j : ℕ =>
          (((img.count (listMinI img + (j : ℤ))) : ℚ),
           ((listMinI img + (j : ℤ) : ℤ) : ℚ))) := by
    unfold countsInt centersInt
    rw [List.zip_map']
  have hM : histN img = (listMaxI img - listMinI img).toNat + 1 := rfl
  have hloM : listMinI img + (((listMaxI img - listMinI img).toNat : ℕ) : ℤ)
      = listMaxI img := by
    have h1 := listMinI_le img (listMaxI img) (listMaxI_mem img hne)
    omega
  have htrim : trimPairs ((countsInt img).zip (centersInt img))
      = (countsInt img).zip (centersInt img) := by
    refine trimPairs_id _ ?_ ?_
    · intro x hx
      rw [hzip, List.head?_map, hM, List.range_eq_range', List.range'_succ,
        List.head?_cons] at hx
      simp only [Option.map_some'] at hx
      obtain rfl := (Option.some.inj hx).symm
      simp only [Nat.cast_zero, add_zero]
      exact ne_of_gt (count_min_pos img hne)
    · intro x hx
      rw [hzip, List.getLast?_eq_head?_reverse, ← List.map_reverse,
        List.head?_map, List.head?_reverse, hM, List.range_succ,
        List.getLast?_concat] at hx
      simp only [Option.map_some'] at hx
      obtain rfl := (Option.some.inj hx).symm
      simp only [hloM]
      exact ne_of_gt (count_max_pos img hne)
  unfold validateHistPair
  rw [htrim]
  unfold countsInt centersInt
  rw [List.zip_map']
  simp only [List.map_map]
  rfl

theorem arange_eq_centers_of_min_zero (img : List ℤ) (hmin : listMinI img = 0) :
    arangeCenters (countsInt img).length = centersInt img := by
  rw [countsInt_length]
  unfold arangeCenters centersInt
  refine List.map_congr_left (fun j _ => ?_)
  rw [hmin]
  push_cast
  ring

/-- C9 (amended): for every image, each of `otsu`, `yen`, `isodata` and
`minimum` returns the same threshold on the raw image and on the precomputed
`(counts, bin_centers)` pair from the histogram builder; the bare-counts path
(whose bin centers are taken to be `0, 1, ..., n-1`) additionally agrees
whenever the image minimum is 0, so that the builder's centers coincide with
`0, 1, ..., n-1` — but not in general (see the counterexample). -/
theorem histogram_arg_paths_agree (logQ : ℚ → ℚ) (budget : ℕ) (img : List ℤ)
    (hne : img ≠ []) :
    (otsuImage img = otsuHistPair (buildHistInt img).1 (buildHistInt img).2 ∧
     yenImage logQ img
       = yenHistPair logQ (buildHistInt img).1 (buildHistInt img).2 ∧
     isodataImage img
       = isodataHistPair (buildHistInt img).1 (buildHistInt img).2 ∧
     minimumImage budget img
       = minimumHistPair budget (buildHistInt img).1 (buildHistInt img).2) ∧
    (listMinI img = 0 →
      (otsuImage img = otsuHistCounts (buildHistInt img).1 ∧
       yenImage logQ img = yenHistCounts logQ (buildHistInt img).1 ∧
       isodataImage img = isodataHistCounts (buildHistInt img).1 ∧
       minimumImage budget img = minimumHistCounts budget (buildHistInt img).1)) := by
  have hbh := buildHistInt_eq img hne
  have hval := validate_builder_id img hne
  constructor
  · rw [hbh]
    refine ⟨?_, ?_, ?_, ?_⟩
    · simp only [otsuImage, otsuHistPair, hbh, hval]
    · simp only [yenImage, yenHistPair, hbh, hval]
    · simp only [isodataImage, isodataHistPair, hbh, hval]
    · simp only [minimumImage, minimumHistPair, hbh, hval]
  · intro hmin
    have har := arange_eq_centers_of_min_zero img hmin
    rw [hbh]
    refine ⟨?_, ?_, ?_, ?_⟩
    · simp only [otsuImage, otsuHistCounts, otsuHistPair, hbh, har, hval]
    · simp only [yenImage, yenHistCounts, yenHistPair, hbh, har, hval]
    · simp only [isodataImage, isodataHistCounts, isodataHistPair, hbh, har, hval]
    · simp only [minimumImage, minimumHistCounts, minimumHistPair, hbh, har, hval]

/-- Witness for C9 at the concrete image `[0, 1]` (minimum 0): image path,
histogram-pair path and bare-counts path agree for otsu and minimum. -/
theorem histogram_arg_paths_agree_witness :
    (otsuImage [0, 1] = otsuHistPair (buildHistInt [0, 1]).1 (buildHistInt [0, 1]).2 ∧
     otsuImage [0, 1] = otsuHistCounts (buildHistInt [0, 1]).1) ∧
    (minimumImage 10000 [0, 1]
       = minimumHistCounts 10000 (buildHistInt [0, 1]).1) := by
  obtain ⟨hpair, hcounts⟩ := histogram_arg_paths_agree (fun q => q) 10000 [0, 1]
    (by simp)
  have hmin : listMinI [0, 1] = 0 := by decide
  obtain ⟨hc1, _, _, hc4⟩ := hcounts hmin
  exact ⟨⟨hpair.1, hc1⟩, hc4⟩

/-- Counterexample to C9 as stated: on the image `[10, 12]` (minimum 10), the
image path returns threshold 10 while the bare-counts path, which assumes bin
centers `0, 1, 2`, returns 0. -/
theorem histogram_counts_path_cex :
    otsuImage [10, 12] = some 10 ∧
    otsuHistCounts (buildHistInt [10, 12]).1 = some 0 := by
  have hbh : buildHistInt [10, 12] = ([1, 0, 1], [10, 11, 12]) := by
    have hr : List.range (Int.toNat 2 + 1) = [0, 1, 2] := rfl
    have hr3 : List.range 3 = [0, 1, 2] := rfl
    norm_num [buildHistInt, listMinI, listMaxI, min_def, max_def,
      List.count_cons, List.count_nil, hr, hr3, beq_iff_eq]
  constructor
  · unfold otsuImage
    rw [hbh]
    have hr2 : List.range 2 = [0, 1] := rfl
    norm_num [otsuCore, otsuVar, sumTo, hr2, argmaxFirst, argmaxGo]
  · rw [hbh]
    unfold otsuHistCounts otsuHistPair
    have hval : validateHistPair [1, 0, 1] (arangeCenters 3) = ([1, 0, 1], [0, 1, 2]) := by
      have hr3 : List.range 3 = [0, 1, 2] := rfl
      norm_num [validateHistPair, arangeCenters, hr3, trimPairs,
        List.dropWhile_cons]
    rw [show arangeCenters ([(1 : ℚ), 0, 1].length) = arangeCenters 3 from rfl, hval]
    have hr2 : List.range 2 = [0, 1] := rfl
    norm_num [otsuCore, otsuVar, sumTo, hr2, argmaxFirst, argmaxGo]

end Threshold
